import Mathlib

/-!
Verification of the buildkit layered cache manager
(`vendor/github.com/moby/buildkit/cache/refs.go` and the merge snapshotter
diff/apply engine) against its natural-language specification.

The development shallowly embeds the record graph, the `Merge` constructor,
`layerWalk`, the lazy-materialization check (`isLazy` / `getRecord`),
`Extract`/`unlazy`, the pruner (`prune` / `sortDeleteRecords`), the
`DiskUsage` refcount propagation, and the applier's delete phase
(`applyDelete`).  External facades (snapshotter, content store) are modelled
as explicit state; machine integers are `Nat`/`Int`; filesystem trees are
association lists.
-/

/-- Static metadata of a cache record, the fields of `cacheRecord`/
`cacheMetadata` that the verified operations read (`refs.go`). -/
structure RecData where
  id : String
  snapId : String
  blob : String
  blobOnly : Bool
  deriving Repr, DecidableEq

/-- A cache record together with its parent relation.  `parentRefs`
(`refs.go` line 114) is documented as a disjoint union: at most one of
`layerParent`, `mergeParents`, `diffParents` is set; `kind()` (line 201)
maps a non-empty `mergeParents` to `Merge`, a non-nil `diffParents` to
`Diff`, a non-nil `layerParent` to `Layer` and everything else to
`BaseLayer`.  The constructors mirror exactly those four shapes; the
`merge` constructor carries a head parent so that `mergeParents` is
non-empty, as `kind()` requires for kind `Merge`. -/
inductive Rec where
  | base (d : RecData)
  | layer (d : RecData) (parent : Rec)
  | merge (d : RecData) (p : Rec) (ps : List Rec)
  | diff (d : RecData) (lower upper : Option Rec)
  deriving Repr

/-- The metadata of a record. -/
def Rec.data : Rec → RecData
  | .base d => d
  | .layer d _ => d
  | .merge d _ _ => d
  | .diff d _ _ => d

/-- `refKind` (`refs.go` line 192). -/
inductive RefKind where
  | BaseLayer
  | Layer
  | Merge
  | Diff
  deriving Repr, DecidableEq

/-- `cacheRecord.kind` (`refs.go` line 201). -/
def Rec.kind : Rec → RefKind
  | .base _ => .BaseLayer
  | .layer _ _ => .Layer
  | .merge _ _ _ => .Merge
  | .diff _ _ _ => .Diff

/-- `mergeParents` of a record (empty for other kinds). -/
def Rec.mergeParents : Rec → List Rec
  | .merge _ p ps => p :: ps
  | _ => []

/-! ## C1: `cacheManager.Merge` flattening (`refs.go` lines 1990-2109) -/

/-- The parent-collection loop of `cacheManager.Merge` (lines 2008-2037):
nil inputs are skipped; the switch on the parent's kind (lines 2025-2033)
has exactly two cases — `Merge` contributes the parent's own merge parents
(each `clone()`d, i.e. the same underlying record), and `Layer, BaseLayer`
contribute the parent itself.  A `Diff`-kind parent matches no case and is
silently dropped. -/
def mergeFlatten : List (Option Rec) → List Rec
  | [] => []
  | none :: rest => mergeFlatten rest
  | some p :: rest =>
    match p with
    | .merge d q qs => (Rec.merge d q qs).mergeParents ++ mergeFlatten rest
    | .layer d q => Rec.layer d q :: mergeFlatten rest
    | .base d => Rec.base d :: mergeFlatten rest
    | .diff _ _ _ => mergeFlatten rest

/-- `cacheManager.Merge` (lines 2039-2109): after flattening, an empty
parent list yields nothing (nil ref), a singleton yields that single
parent, and otherwise a fresh record of kind `Merge` is built whose
`mergeParents` are the flattened list.  `newData` stands for the freshly
allocated id/metadata (`identity.NewID()`). -/
def cacheManagerMerge (newData : RecData) (inputParents : List (Option Rec)) : Option Rec :=
  match mergeFlatten inputParents with
  | [] => none
  | [p] => some p
  | p :: ps => some (Rec.merge newData p ps)

theorem mergeFlatten_append (xs ys : List (Option Rec)) :
    mergeFlatten (xs ++ ys) = mergeFlatten xs ++ mergeFlatten ys := by
  induction xs with
  | nil => rfl
  | cons x rest ih =>
    cases x with
    | none => simpa [mergeFlatten] using ih
    | some p =>
      cases p <;> simp [mergeFlatten, ih, Rec.mergeParents]

/-- Helper: the merge parents of the record `cacheManagerMerge` returns
(empty when it returns nothing or a non-merge single parent). -/
def mergeParentsOf : Option Rec → List Rec
  | none => []
  | some r => r.mergeParents

theorem cacheManagerMerge_congr (d2 d3 : RecData) (xs ys : List (Option Rec))
    (h : mergeFlatten xs = mergeFlatten ys) :
    mergeParentsOf (cacheManagerMerge d2 xs) = mergeParentsOf (cacheManagerMerge d3 ys) := by
  unfold cacheManagerMerge
  rw [h]
  cases hys : mergeFlatten ys with
  | nil => rfl
  | cons p ps =>
    cases ps with
    | nil => rfl
    | cons q qs => rfl

/-- C1.  `Merge` drops nil inputs and flattens `Merge`-kind inputs into
their own merge parents; an empty flattened list yields nothing and a
singleton yields that very ref (so a sole `Diff`-kind input, dropped by
the kind switch, yields nothing); and `Merge([Merge([a,b]),c])` yields a
record whose merge parents are exactly those of `Merge([a,b,c])` (merge
records are never nested directly).  The last part assumes every ref the
first merge collects is of kind `Layer` or `BaseLayer`: this is the
program's data invariant, since the switch (lines 2025-2033) only ever
appends `Layer`/`BaseLayer` records to `mergeParents`, so any reachable
merge record satisfies it. -/
theorem merge_flattening_c1 :
    (∀ d inputs, mergeFlatten inputs = [] → cacheManagerMerge d inputs = none) ∧
    (∀ d inputs r, mergeFlatten inputs = [r] → cacheManagerMerge d inputs = some r) ∧
    (∀ d q qs rest, mergeFlatten (some (Rec.merge d q qs) :: rest)
        = (q :: qs) ++ mergeFlatten rest) ∧
    (∀ d1 d2 d3 (a b c : Rec),
      (∀ r ∈ mergeFlatten [some a, some b],
        r.kind = RefKind.Layer ∨ r.kind = RefKind.BaseLayer) →
      mergeParentsOf (cacheManagerMerge d2
          [cacheManagerMerge d1 [some a, some b], some c]) =
      mergeParentsOf (cacheManagerMerge d3 [some a, some b, some c])) := by
  refine ⟨?_, ?_, ?_, ?_⟩
  · intro d inputs h
    unfold cacheManagerMerge
    rw [h]
  · intro d inputs r h
    unfold cacheManagerMerge
    rw [h]
  · intro d q qs rest
    rfl
  · intro d1 d2 d3 a b c H
    have hB : mergeFlatten [some a, some b, some c]
        = mergeFlatten [some a, some b] ++ mergeFlatten [some c] := by
      simpa using mergeFlatten_append [some a, some b] [some c]
    have hA : mergeFlatten [cacheManagerMerge d1 [some a, some b], some c]
        = mergeFlatten [some a, some b] ++ mergeFlatten [some c] := by
      cases hF : mergeFlatten [some a, some b] with
      | nil =>
        unfold cacheManagerMerge
        rw [hF]
        rfl
      | cons p ps =>
        cases ps with
        | nil =>
          unfold cacheManagerMerge
          rw [hF]
          have hp := H p (by rw [hF]; exact List.mem_singleton.mpr rfl)
          cases p with
          | base d => rfl
          | layer d q => rfl
          | merge d q qs => simp [Rec.kind] at hp
          | diff d lo up => simp [Rec.kind] at hp
        | cons q qs =>
          unfold cacheManagerMerge
          rw [hF]
          rfl
    exact cacheManagerMerge_congr d2 d3 _ _ (hA.trans hB.symm)

/-! ## C6: `immutableRef.layerWalk` (`refs.go` lines 483-510) -/

/-- `layerParent` of a record (`none` for other kinds). -/
def Rec.layerParent : Rec → Option Rec
  | .layer _ p => some p
  | _ => none

mutual

/-- `immutableRef.layerWalk` (lines 483-510): visits each ref representing
an actual layer in the chain, lowest to highest.  `Merge` walks each parent
in order; `Diff` re-emits the single upper layer when the upper is one blob
different from the lower (a base layer diffed against nil lower, or a layer
sitting directly atop the lower), and otherwise emits the diff record
itself; `Layer` walks its parent and then emits itself; `BaseLayer` emits
itself. -/
def layerWalk : Rec → List Rec
  | .base d => [.base d]
  | .layer d p => layerWalk p ++ [.layer d p]
  | .merge d p ps => layerWalk p ++ layerWalkList ps
  | .diff d lo up =>
    match lo, up with
    | none, some u =>
      match u.kind with
      | .BaseLayer => [u]
      | _ => [.diff d lo up]
    | some l, some u =>
      match u with
      | .layer ud upar =>
        if upar.data.id = l.data.id then [.layer ud upar]
        else [.diff d lo up]
      | _ => [.diff d lo up]
    | _, _ => [.diff d lo up]

/-- Walks a list of merge parents in order, concatenating the results. -/
def layerWalkList : List Rec → List Rec
  | [] => []
  | r :: rs => layerWalk r ++ layerWalkList rs

end

/-- The claim's side condition for the `Diff` case of `layerWalk`, stated
independently of the code's control flow: the upper is a single layer
directly atop the lower (its layer parent is the lower), or the upper is a
base layer and the lower is nil. -/
def singleLayerAtop (lo up : Option Rec) : Prop :=
  (∃ u, up = some u ∧ lo = none ∧ u.kind = RefKind.BaseLayer) ∨
  (∃ ud upar l, up = some (Rec.layer ud upar) ∧ lo = some l ∧
    upar.data.id = l.data.id)

/-- C6.  `layerWalk` emits layers lowest to highest: a base layer emits
itself, a layer emits its parent's walk followed by itself, a merge emits
its parents' walks in parent order, and a diff emits the single upper
layer exactly when the upper is a single layer atop the lower (or a base
layer against a nil lower) and the diff record itself in every other
case. -/
theorem layerWalk_c6 :
    (∀ d, layerWalk (Rec.base d) = [Rec.base d]) ∧
    (∀ d p, layerWalk (Rec.layer d p) = layerWalk p ++ [Rec.layer d p]) ∧
    (∀ d p ps, layerWalk (Rec.merge d p ps) = layerWalk p ++ layerWalkList ps) ∧
    (∀ d lo up, (singleLayerAtop lo up →
        ∃ u, up = some u ∧ layerWalk (Rec.diff d lo up) = [u]) ∧
      (¬ singleLayerAtop lo up →
        layerWalk (Rec.diff d lo up) = [Rec.diff d lo up])) := by
  refine ⟨fun d => rfl, fun d p => rfl, fun d p ps => rfl, ?_⟩
  intro d lo up
  constructor
  · rintro (⟨u, hup, hlo, hk⟩ | ⟨ud, upar, l, hup, hlo, hid⟩)
    · subst hup; subst hlo
      refine ⟨u, rfl, ?_⟩
      cases u with
      | base bd => simp [layerWalk, Rec.kind]
      | layer ld lp => simp [Rec.kind] at hk
      | merge md mp mps => simp [Rec.kind] at hk
      | diff dd dl du => simp [Rec.kind] at hk
    · subst hup; subst hlo
      exact ⟨Rec.layer ud upar, rfl, by simp [layerWalk, hid]⟩
  · intro hn
    cases lo with
    | none =>
      cases up with
      | none => simp [layerWalk]
      | some u =>
        cases u with
        | base bd => exact absurd (Or.inl ⟨Rec.base bd, rfl, rfl, rfl⟩) hn
        | layer ld lp => simp [layerWalk, Rec.kind]
        | merge md mp mps => simp [layerWalk, Rec.kind]
        | diff dd dl du => simp [layerWalk, Rec.kind]
    | some l =>
      cases up with
      | none => simp [layerWalk]
      | some u =>
        cases u with
        | base bd => simp [layerWalk]
        | layer ld lp =>
          have hne : lp.data.id ≠ l.data.id := by
            intro h
            exact hn (Or.inr ⟨ld, lp, l, rfl, rfl, h⟩)
          simp [layerWalk, hne]
        | merge md mp mps => simp [layerWalk]
        | diff dd dl du => simp [layerWalk]

/-- Witness for C6: a two-layer chain diffed against its own base layer
walks to exactly the single upper layer, and a diff of two unrelated base
layers emits the diff record itself. -/
theorem layerWalk_c6_witness :
    layerWalk (Rec.diff ⟨"d", "sd", "", true⟩
        (some (Rec.base ⟨"a", "sa", "ba", false⟩))
        (some (Rec.layer ⟨"b", "sb", "bb", false⟩ (Rec.base ⟨"a", "sa", "ba", false⟩))))
      = [Rec.layer ⟨"b", "sb", "bb", false⟩ (Rec.base ⟨"a", "sa", "ba", false⟩)] ∧
    layerWalk (Rec.diff ⟨"d2", "sd2", "", true⟩
        (some (Rec.base ⟨"a", "sa", "ba", false⟩))
        (some (Rec.base ⟨"c", "sc", "bc", false⟩)))
      = [Rec.diff ⟨"d2", "sd2", "", true⟩
          (some (Rec.base ⟨"a", "sa", "ba", false⟩))
          (some (Rec.base ⟨"c", "sc", "bc", false⟩))] := by
  constructor
  · obtain ⟨u, hu, hw⟩ :=
      (layerWalk_c6.2.2.2 ⟨"d", "sd", "", true⟩
          (some (Rec.base ⟨"a", "sa", "ba", false⟩))
          (some (Rec.layer ⟨"b", "sb", "bb", false⟩ (Rec.base ⟨"a", "sa", "ba", false⟩)))).1
        (Or.inr ⟨⟨"b", "sb", "bb", false⟩, Rec.base ⟨"a", "sa", "ba", false⟩,
          Rec.base ⟨"a", "sa", "ba", false⟩, rfl, rfl, rfl⟩)
    cases hu
    exact hw
  · exact (layerWalk_c6.2.2.2 ⟨"d2", "sd2", "", true⟩
        (some (Rec.base ⟨"a", "sa", "ba", false⟩))
        (some (Rec.base ⟨"c", "sc", "bc", false⟩))).2
      (by rintro (⟨u, hu, hlo, hk⟩ | ⟨ud, upar, l, hup, hlo, hid⟩) <;> simp_all)

/-! ## C5 / C10: `isLazy` (`refs.go` lines 268-292) and the lazy-provider
check of `getRecord` (lines 1732-1761)

The content store is modelled as the list of digests it holds, and the
snapshotter's `Stat` as an association list from snapshot id to the value
of its `containerd.io/snapshot/remote` label (a missing key means `Stat`
fails with not-found). -/

/-- `cacheRecord.isLazy` (lines 268-292): false unless `blobOnly`; false
for the empty digest (the moby special case with no compressed blob);
true when the content store has no info for the blob; otherwise true
exactly when the snapshot exists and carries the remote label. -/
def isLazy (cs : List String) (snap : List (String × Bool)) (d : RecData) : Bool :=
  if !d.blobOnly then false
  else if d.blob = "" then false
  else if !(cs.contains d.blob) then true
  else
    match snap.lookup d.snapId with
    | some remote => remote
    | none => false

/-- The records pushed onto the walk stack for one record
(`walkAncestors`, lines 226-254): the layer parent, the merge parents in
order, or the non-nil diff parents (lower then upper). -/
def Rec.children : Rec → List Rec
  | .base _ => []
  | .layer _ p => [p]
  | .merge _ p ps => p :: ps
  | .diff _ lo up => lo.toList ++ up.toList

theorem list_sum_sizeOf_le (ps : List Rec) :
    (ps.map sizeOf).sum + ps.length < sizeOf ps := by
  induction ps with
  | nil => simp
  | cons p rest ih =>
    simp only [List.map_cons, List.sum_cons, List.cons.sizeOf_spec, List.length_cons]
    omega

theorem sum_sizeOf_children_lt (r : Rec) :
    ((Rec.children r).map sizeOf).sum + (Rec.children r).length ≤ sizeOf r := by
  cases r with
  | base d =>
    have : 0 < sizeOf (Rec.base d) := by simp
    simp [Rec.children]
  | layer d p =>
    have hd : 0 < sizeOf d := by cases d; simp
    simp only [Rec.children, List.map_cons, List.map_nil, List.sum_cons, List.sum_nil,
      List.length_cons, List.length_nil, Rec.layer.sizeOf_spec]
    omega
  | merge d p ps =>
    have := list_sum_sizeOf_le ps
    simp only [Rec.children, List.map_cons, List.sum_cons, List.length_cons,
      Rec.merge.sizeOf_spec]
    omega
  | diff d lo up =>
    have hlo : ((lo.toList).map sizeOf).sum + (lo.toList).length ≤ sizeOf lo := by
      cases lo <;> simp <;> omega
    have hup : ((up.toList).map sizeOf).sum + (up.toList).length ≤ sizeOf up := by
      cases up <;> simp <;> omega
    simp only [Rec.children, List.map_append, List.sum_append, List.length_append,
      Rec.diff.sizeOf_spec]
    omega

/-- `cacheRecord.walkUniqueAncestors` (lines 226-266) as a stack machine:
Go keeps a slice `curs` and pops from its end, so the head of our stack is
the end of `curs` and a record's children are pushed reversed; the memo
set (pointer identity in Go, record ids here, which are unique per record
in the manager's map) makes each record visited at most once.  Returns
the visited records in visit order. -/
def walkAncestorsAux : List Rec → List String → List Rec
  | [], _ => []
  | r :: rest, memo =>
    if memo.contains r.data.id then walkAncestorsAux rest memo
    else r :: walkAncestorsAux ((Rec.children r).reverse ++ rest) (r.data.id :: memo)
termination_by stack _ => (stack.map sizeOf).sum + stack.length
decreasing_by
  · simp only [List.map_cons, List.sum_cons, List.length_cons]
    have : 0 < sizeOf r := by cases r <;> simp
    omega
  · simp only [List.map_cons, List.sum_cons, List.length_cons, List.map_append,
      List.sum_append, List.length_append, List.map_reverse, List.length_reverse]
    have h1 := sum_sizeOf_children_lt r
    have h2 : ((Rec.children r).map sizeOf).reverse.sum = ((Rec.children r).map sizeOf).sum :=
      List.sum_reverse _
    omega

/-- The unique-ancestor visit list of a record (itself included). -/
def uniqueAncestors (r : Rec) : List Rec := walkAncestorsAux [r] []

/-- The `checkLazyProviders` closure of `getRecord` (lines 1733-1751) as a
stack machine sharing the shape of `walkAncestorsAux`: walking unique
ancestors, it collects, in visit order, the blob digest of every lazy
record whose digest has no descriptor handler in `dhs`. -/
def checkLazyAux (cs : List String) (snap : List (String × Bool)) (dhs : List String) :
    List Rec → List String → List String
  | [], _ => []
  | r :: rest, memo =>
    if memo.contains r.data.id then checkLazyAux cs snap dhs rest memo
    else
      if isLazy cs snap r.data ∧ ¬ dhs.contains r.data.blob then
        r.data.blob ::
          checkLazyAux cs snap dhs ((Rec.children r).reverse ++ rest) (r.data.id :: memo)
      else
        checkLazyAux cs snap dhs ((Rec.children r).reverse ++ rest) (r.data.id :: memo)
termination_by stack _ => (stack.map sizeOf).sum + stack.length
decreasing_by
  · simp only [List.map_cons, List.sum_cons, List.length_cons]
    have : 0 < sizeOf r := by cases r <;> simp
    omega
  · simp only [List.map_cons, List.sum_cons, List.length_cons, List.map_append,
      List.sum_append, List.length_append, List.map_reverse, List.length_reverse]
    have h1 := sum_sizeOf_children_lt r
    have h2 : ((Rec.children r).map sizeOf).reverse.sum = ((Rec.children r).map sizeOf).sum :=
      List.sum_reverse _
    omega
  · simp only [List.map_cons, List.sum_cons, List.length_cons, List.map_append,
      List.sum_append, List.length_append, List.map_reverse, List.length_reverse]
    have h1 := sum_sizeOf_children_lt r
    have h2 : ((Rec.children r).map sizeOf).reverse.sum = ((Rec.children r).map sizeOf).sum :=
      List.sum_reverse _
    omega

/-- Outcome of `Get` on a resident, non-dead, immutable record: either a
reference is returned or the call fails with `NeedsRemoteProviders`. -/
inductive GetOutcome where
  | ok
  | needsRemote (missing : List String)
  deriving Repr, DecidableEq

/-- `getRecord` on a resident record (lines 1753-1761): runs
`checkLazyProviders` and fails with the collected missing digests when
there are any; `get` then returns a reference on the record. -/
def getRecordResident (cs : List String) (snap : List (String × Bool))
    (dhs : List String) (r : Rec) : GetOutcome :=
  match checkLazyAux cs snap dhs [r] [] with
  | [] => .ok
  | missing => .needsRemote missing

/-- The contribution of a single visited ancestor to the missing list:
its blob, when it is lazy and has no descriptor handler. -/
def lazyMissingF (cs : List String) (snap : List (String × Bool)) (dhs : List String)
    (a : Rec) : Option String :=
  if isLazy cs snap a.data ∧ ¬ dhs.contains a.data.blob then some a.data.blob else none

theorem checkLazyAux_eq_filterMap (cs : List String) (snap : List (String × Bool))
    (dhs : List String) (stack : List Rec) (memo : List String) :
    checkLazyAux cs snap dhs stack memo
      = (walkAncestorsAux stack memo).filterMap (lazyMissingF cs snap dhs) := by
  induction stack, memo using walkAncestorsAux.induct with
  | case1 memo => simp [checkLazyAux, walkAncestorsAux]
  | case2 r rest memo hmem ih =>
    rw [checkLazyAux, walkAncestorsAux]
    simp only [hmem, if_true]
    exact ih
  | case3 r rest memo hmem ih =>
    rw [checkLazyAux, walkAncestorsAux]
    rw [if_neg hmem, if_neg hmem, List.filterMap_cons]
    by_cases h : isLazy cs snap r.data = true ∧ ¬ dhs.contains r.data.blob = true
    · have hf : lazyMissingF cs snap dhs r = some r.data.blob := by
        unfold lazyMissingF
        exact if_pos h
      rw [if_pos h, hf, ih]
    · have hf : lazyMissingF cs snap dhs r = none := by
        unfold lazyMissingF
        exact if_neg h
      rw [if_neg h, hf, ih]

theorem lazyMissingF_eq_none_iff (cs : List String) (snap : List (String × Bool))
    (dhs : List String) (a : Rec) :
    lazyMissingF cs snap dhs a = none ↔
      (isLazy cs snap a.data = true → dhs.contains a.data.blob = true) := by
  unfold lazyMissingF
  by_cases h : isLazy cs snap a.data = true ∧ ¬ dhs.contains a.data.blob = true
  · rw [if_pos h]
    simp only [reduceCtorEq, false_iff]
    intro hcontra
    exact h.2 (hcontra h.1)
  · rw [if_neg h]
    simp only [true_iff]
    intro hlazy
    by_cases hc : dhs.contains a.data.blob = true
    · exact hc
    · exact absurd ⟨hlazy, hc⟩ h

/-- C5 (amended).  For a `Get` of a resident record: with laziness as the
code defines it (`blobOnly` set, non-empty blob digest, and the blob
missing from the content store or the snapshot carrying the remote
label), the call returns a ref exactly when every unique ancestor that is
lazy has a descriptor handler for its blob; otherwise it fails with
`NeedsRemoteProviders` listing, in walk order, exactly the blob digests of
the lazy ancestors lacking a handler. -/
theorem getRecord_lazy_check_c5 (cs : List String) (snap : List (String × Bool))
    (dhs : List String) (r : Rec) :
    (getRecordResident cs snap dhs r = GetOutcome.ok ↔
      ∀ a ∈ uniqueAncestors r, isLazy cs snap a.data = true →
        dhs.contains a.data.blob = true) ∧
    (∀ L, getRecordResident cs snap dhs r = GetOutcome.needsRemote L →
      L = (uniqueAncestors r).filterMap (lazyMissingF cs snap dhs) ∧ L ≠ []) := by
  have hrw : checkLazyAux cs snap dhs [r] []
      = (uniqueAncestors r).filterMap (lazyMissingF cs snap dhs) := by
    rw [checkLazyAux_eq_filterMap]
    rfl
  unfold getRecordResident
  rw [hrw]
  cases hL : (uniqueAncestors r).filterMap (lazyMissingF cs snap dhs) with
  | nil =>
    refine ⟨⟨fun _ a ha hlazy => ?_, fun _ => rfl⟩, fun L hcontra => by cases hcontra⟩
    have := (List.filterMap_eq_nil_iff.mp hL) a ha
    exact (lazyMissingF_eq_none_iff cs snap dhs a).mp this hlazy
  | cons b bs =>
    refine ⟨⟨fun hcontra => (by cases hcontra), fun hall => ?_⟩, fun L hEq => ?_⟩
    · have : (uniqueAncestors r).filterMap (lazyMissingF cs snap dhs) = [] :=
        List.filterMap_eq_nil_iff.mpr fun a ha =>
          (lazyMissingF_eq_none_iff cs snap dhs a).mpr (hall a ha)
      rw [hL] at this
      cases this
    · cases hEq
      exact ⟨rfl, by simp⟩

/-- The claim's wording of laziness (spec §4.3): "a record is lazy iff
`blobOnly` is true and the underlying snapshot is absent or marked
remote".  Stated from the claim's words, for comparison against `isLazy`,
which is translated from the source. -/
def isLazySpecWorded (snap : List (String × Bool)) (d : RecData) : Bool :=
  d.blobOnly &&
    (match snap.lookup d.snapId with
     | none => true
     | some remote => remote)

/-- Counterexample to C5 as stated: a record with `blobOnly` set whose
blob is present in the content store and whose snapshot is absent.  It is
lazy under the claim's definition, it has no descriptor handler, and yet
`Get` succeeds: the code tests the content store for the blob, not the
snapshotter for the snapshot, so no `NeedsRemoteProviders` error is
produced. -/
theorem getRecord_lazy_check_c5_counterexample :
    isLazySpecWorded [] ⟨"r0", "s0", "d0", true⟩ = true ∧
    getRecordResident ["d0"] [] []
      (Rec.base ⟨"r0", "s0", "d0", true⟩) = GetOutcome.ok := by
  constructor
  · rfl
  · simp [getRecordResident, checkLazyAux, walkAncestorsAux, isLazy, Rec.children,
      Rec.data, lazyMissingF]

/-- Witness for C5 (amended): a lazy base record with no handler makes
`Get` fail with exactly its blob digest. -/
theorem getRecord_lazy_check_c5_witness :
    (["dw1"] : List String)
        = (uniqueAncestors (Rec.base ⟨"w1", "sw1", "dw1", true⟩)).filterMap
            (lazyMissingF [] [] []) ∧
      (["dw1"] : List String) ≠ [] := by
  have hL : getRecordResident [] [] [] (Rec.base ⟨"w1", "sw1", "dw1", true⟩)
      = GetOutcome.needsRemote ["dw1"] := by
    simp [getRecordResident, checkLazyAux, walkAncestorsAux, isLazy, Rec.children,
      Rec.data, lazyMissingF]
  exact (getRecord_lazy_check_c5 [] [] [] (Rec.base ⟨"w1", "sw1", "dw1", true⟩)).2
    ["dw1"] hL

/-- C10.  A record with `blobOnly` set but an empty blob digest (the moby
case with no compressed blob) is never lazy, whatever the content store
and snapshotter hold, and consequently the missing-digest list of a
`NeedsRemoteProviders` failure never refers to such a record: every listed
digest is non-empty. -/
theorem emptyBlob_never_lazy_c10 :
    (∀ cs snap (d : RecData), d.blobOnly = true → d.blob = "" →
      isLazy cs snap d = false) ∧
    (∀ cs snap dhs r L, getRecordResident cs snap dhs r = GetOutcome.needsRemote L →
      "" ∉ L) := by
  have hlazy_ne : ∀ cs snap (d : RecData), isLazy cs snap d = true → d.blob ≠ "" := by
    intro cs snap d h hblob
    unfold isLazy at h
    rw [hblob] at h
    by_cases hbo : d.blobOnly
    · simp [hbo] at h
    · simp [hbo] at h
  refine ⟨fun cs snap d hbo hblob => ?_, fun cs snap dhs r L hget hmem => ?_⟩
  · unfold isLazy
    rw [hblob]
    by_cases hb2 : d.blobOnly <;> simp [hb2]
  · have hrw : checkLazyAux cs snap dhs [r] []
        = (uniqueAncestors r).filterMap (lazyMissingF cs snap dhs) := by
      rw [checkLazyAux_eq_filterMap]
      rfl
    unfold getRecordResident at hget
    rw [hrw] at hget
    cases hL : (uniqueAncestors r).filterMap (lazyMissingF cs snap dhs) with
    | nil => rw [hL] at hget; cases hget
    | cons b bs =>
      rw [hL] at hget
      cases hget
      rw [← hL] at hmem
      obtain ⟨a, ha, hfa⟩ := List.mem_filterMap.mp hmem
      unfold lazyMissingF at hfa
      by_cases hcond : isLazy cs snap a.data = true ∧ ¬ dhs.contains a.data.blob = true
      · rw [if_pos hcond] at hfa
        have hblob : a.data.blob = "" := Option.some.inj hfa
        exact hlazy_ne cs snap a.data hcond.1 hblob
      · rw [if_neg hcond] at hfa
        cases hfa

/-- Witness for C10: a concrete `blobOnly` record with empty digest is not
lazy even though its snapshot is absent, and a concrete
`NeedsRemoteProviders` failure does not list the empty digest. -/
theorem emptyBlob_never_lazy_c10_witness :
    isLazy ["x"] [] ⟨"i", "s", "", true⟩ = false ∧
    "" ∉ (["dw2"] : List String) := by
  constructor
  · exact emptyBlob_never_lazy_c10.1 ["x"] [] ⟨"i", "s", "", true⟩ rfl rfl
  · have hL : getRecordResident [] [] [] (Rec.base ⟨"w2", "sw2", "dw2", true⟩)
        = GetOutcome.needsRemote ["dw2"] := by
      simp [getRecordResident, checkLazyAux, walkAncestorsAux, isLazy, Rec.children,
        Rec.data, lazyMissingF]
    exact emptyBlob_never_lazy_c10.2 [] [] [] (Rec.base ⟨"w2", "sw2", "dw2", true⟩)
      ["dw2"] hL

/-- Witness for C1: a nil-only input list yields nothing and a singleton
non-merge input is returned as-is. -/
theorem merge_flattening_c1_witness :
    cacheManagerMerge ⟨"m", "m", "", false⟩ [none] = none ∧
    cacheManagerMerge ⟨"m", "m", "", false⟩
      [some (Rec.diff ⟨"d", "sd", "", false⟩ none none)] = none ∧
    cacheManagerMerge ⟨"m", "m", "", false⟩ [some (Rec.base ⟨"a", "sa", "", false⟩)]
      = some (Rec.base ⟨"a", "sa", "", false⟩) ∧
    mergeParentsOf (cacheManagerMerge ⟨"m2", "m2", "", false⟩
        [cacheManagerMerge ⟨"m1", "m1", "", false⟩
          [some (Rec.base ⟨"a", "sa", "", false⟩),
           some (Rec.base ⟨"b", "sb", "", false⟩)],
         some (Rec.base ⟨"c", "sc", "", false⟩)])
      = mergeParentsOf (cacheManagerMerge ⟨"m3", "m3", "", false⟩
          [some (Rec.base ⟨"a", "sa", "", false⟩),
           some (Rec.base ⟨"b", "sb", "", false⟩),
           some (Rec.base ⟨"c", "sc", "", false⟩)]) := by
  refine ⟨?_, ?_, ?_, ?_⟩
  · exact merge_flattening_c1.1 ⟨"m", "m", "", false⟩ [none] rfl
  · exact merge_flattening_c1.1 ⟨"m", "m", "", false⟩
      [some (Rec.diff ⟨"d", "sd", "", false⟩ none none)] rfl
  · exact merge_flattening_c1.2.1 ⟨"m", "m", "", false⟩
      [some (Rec.base ⟨"a", "sa", "", false⟩)] (Rec.base ⟨"a", "sa", "", false⟩) rfl
  · exact merge_flattening_c1.2.2.2 ⟨"m1", "m1", "", false⟩ ⟨"m2", "m2", "", false⟩
      ⟨"m3", "m3", "", false⟩ (Rec.base ⟨"a", "sa", "", false⟩)
      (Rec.base ⟨"b", "sb", "", false⟩) (Rec.base ⟨"c", "sc", "", false⟩) (by decide)

/-! ## C3: GC-mode prune pass and `sortDeleteRecords`
(`refs.go` lines 2268-2286, 2702-2743)

`sort.Slice` only guarantees a sorted permutation (comparators here are
strict-less functions), so the model uses a deterministic insertion sort
with the code's comparators.  The float64 score arithmetic is modelled
exactly by rational arithmetic, matching the claim's formula. -/

/-- A prune candidate as captured in `deleteRecord` (line 2694):
`lastUsedAt` is a timestamp (`none` for a nil time pointer) and
`usageCount` the persisted use counter. -/
structure DRec where
  id : String
  lastUsedAt : Option Nat
  usageCount : Nat
  deriving Repr, DecidableEq

/-- A candidate with its assigned `lastUsedAtIndex` and `usageCountIndex`. -/
structure IRec where
  drec : DRec
  luIdx : Nat
  ucIdx : Nat
  deriving Repr, DecidableEq

/-- Insert into a list sorted by the strict-less test `lt`, keeping equal
elements after existing ones (a valid realization of `sort.Slice`). -/
def insertBy (lt : α → α → Bool) (x : α) : List α → List α
  | [] => [x]
  | y :: ys => if lt x y then x :: y :: ys else y :: insertBy lt x ys

/-- Insertion sort by the strict-less test `lt`. -/
def sortBy (lt : α → α → Bool) : List α → List α
  | [] => []
  | x :: xs => insertBy lt x (sortBy lt xs)

/-- The first comparator of `sortDeleteRecords` (lines 2703-2711): a nil
`lastUsedAt` sorts first, otherwise timestamps compare by `Before`. -/
def ltLastUsed (a b : DRec) : Bool :=
  match a.lastUsedAt, b.lastUsedAt with
  | none, _ => true
  | _, none => false
  | some x, some y => decide (x < y)

/-- The second comparator (lines 2723-2725): ascending `usageCount`. -/
def ltUsage (a b : IRec) : Bool :=
  decide (a.drec.usageCount < b.drec.usageCount)

/-- The `lastUsedAtIndex` assignment loop (lines 2713-2721): walking the
list sorted by `lastUsedAt`, the running maximum index is bumped whenever
a timestamp strictly after the largest seen value appears (`val` starts at
the zero time, modelled as 0); every record gets the current maximum as
its index.  Returns the indexed list and the final `maxLastUsedIndex`. -/
def assignLu : List DRec → Nat → Nat → List IRec × Nat
  | [], maxIdx, _ => ([], maxIdx)
  | r :: rest, maxIdx, val =>
    match r.lastUsedAt with
    | some t =>
      if val < t then
        let res := assignLu rest (maxIdx + 1) t
        (⟨r, maxIdx + 1, 0⟩ :: res.1, res.2)
      else
        let res := assignLu rest maxIdx val
        (⟨r, maxIdx, 0⟩ :: res.1, res.2)
    | none =>
      let res := assignLu rest maxIdx val
      (⟨r, maxIdx, 0⟩ :: res.1, res.2)

/-- The `usageCountIndex` assignment loop (lines 2727-2735): the running
maximum index is bumped whenever the usage count differs from the last
seen value (`count` starts at 0). -/
def assignUc : List IRec → Nat → Nat → List IRec × Nat
  | [], maxIdx, _ => ([], maxIdx)
  | r :: rest, maxIdx, count =>
    if r.drec.usageCount ≠ count then
      let res := assignUc rest (maxIdx + 1) r.drec.usageCount
      ({ r with ucIdx := maxIdx + 1 } :: res.1, res.2)
    else
      let res := assignUc rest maxIdx count
      ({ r with ucIdx := maxIdx } :: res.1, res.2)

/-- The score of the final comparator (lines 2737-2742):
`lastUsedAtIndex/maxLastUsedIndex + usageCountIndex/maxUsageCountIndex`,
in exact rational arithmetic. -/
def scoreQ (maxLu maxUc : Nat) (r : IRec) : ℚ :=
  (r.luIdx : ℚ) / (maxLu : ℚ) + (r.ucIdx : ℚ) / (maxUc : ℚ)

/-- The final comparator: ascending score. -/
def ltScore (maxLu maxUc : Nat) (a b : IRec) : Bool :=
  decide (scoreQ maxLu maxUc a < scoreQ maxLu maxUc b)

/-- `sortDeleteRecords` (lines 2702-2743): sort by `lastUsedAt` and assign
rank indexes, sort by `usageCount` and assign rank indexes, then sort by
the combined normalized score.  Returns the sorted indexed candidates and
the two maxima. -/
def sortDeleteRecords (toDelete : List DRec) : List IRec × Nat × Nat :=
  let s1 := sortBy ltLastUsed toDelete
  let a1 := assignLu s1 0 0
  let s2 := sortBy ltUsage a1.1
  let a2 := assignUc s2 0 0
  (sortBy (ltScore a1.2 a2.2) a2.1, a1.2, a2.2)

/-- The GC-mode branch of a prune pass (lines 2268-2286): with candidates
collected, sort them, mark only the first sorted record dead and keep it
as the single victim (`toDelete = toDelete[:1]`); every other candidate is
unlocked and left alive for the next pass. -/
def gcModePass (toDelete : List DRec) : List IRec × List IRec :=
  let sorted := (sortDeleteRecords toDelete).1
  (sorted.take 1, sorted.drop 1)

theorem insertBy_perm (lt : α → α → Bool) (x : α) (l : List α) :
    List.Perm (insertBy lt x l) (x :: l) := by
  induction l with
  | nil => exact List.Perm.refl _
  | cons y ys ih =>
    unfold insertBy
    by_cases h : lt x y = true
    · rw [if_pos h]
    · rw [if_neg h]
      exact (List.Perm.cons y ih).trans (List.Perm.swap x y ys)

theorem sortBy_perm (lt : α → α → Bool) (l : List α) :
    List.Perm (sortBy lt l) l := by
  induction l with
  | nil => exact List.Perm.refl _
  | cons x xs ih =>
    exact (insertBy_perm lt x (sortBy lt xs)).trans (List.Perm.cons x ih)

theorem sortBy_head_min (f : α → ℚ) (l : List α) (h : α) (t : List α)
    (heq : sortBy (fun a b => decide (f a < f b)) l = h :: t) :
    ∀ x ∈ l, f h ≤ f x := by
  induction l generalizing h t with
  | nil => cases heq
  | cons y ys ih =>
    unfold sortBy at heq
    cases hs : sortBy (fun a b => decide (f a < f b)) ys with
    | nil =>
      rw [hs] at heq
      unfold insertBy at heq
      cases heq
      intro x hx
      have hperm := sortBy_perm (fun a b => decide (f a < f b)) ys
      rw [hs] at hperm
      have : ys = [] := hperm.symm.eq_nil
      rw [this] at hx
      rcases List.mem_cons.mp hx with h1 | h1
      · rw [h1]
      · cases h1
    | cons z zs =>
      rw [hs] at heq
      have ihz := ih z zs hs
      unfold insertBy at heq
      by_cases hlt : decide (f y < f z) = true
      · rw [if_pos hlt] at heq
        injection heq with h1 h2
        subst h1
        intro x hx
        rcases List.mem_cons.mp hx with h1 | h1
        · rw [h1]
        · have hyz : f y < f z := of_decide_eq_true hlt
          exact le_of_lt (lt_of_lt_of_le hyz (ihz x h1))
      · rw [if_neg hlt] at heq
        injection heq with h1 h2
        subst h1
        intro x hx
        rcases List.mem_cons.mp hx with h1 | h1
        · rw [h1]
          exact le_of_not_lt (fun hc => hlt (decide_eq_true hc))
        · exact ihz x h1

theorem assignLu_map_rec (l : List DRec) (m v : Nat) :
    (assignLu l m v).1.map IRec.drec = l := by
  induction l generalizing m v with
  | nil => rfl
  | cons r rest ih =>
    unfold assignLu
    cases r.lastUsedAt with
    | some t =>
      by_cases h : v < t
      · simp only [if_pos h, List.map_cons, ih]
      · simp only [if_neg h, List.map_cons, ih]
    | none => simp only [List.map_cons, ih]

theorem assignUc_map_rec (l : List IRec) (m c : Nat) :
    (assignUc l m c).1.map IRec.drec = l.map IRec.drec := by
  induction l generalizing m c with
  | nil => rfl
  | cons r rest ih =>
    unfold assignUc
    by_cases h : r.drec.usageCount ≠ c
    · simp only [if_pos h, List.map_cons, ih]
    · simp only [if_neg h, List.map_cons, ih]

/-- C3.  In GC-under-budget mode a prune pass with a non-empty candidate
list deletes exactly one record: the victim list is the single head of the
score-sorted candidates, the survivors are the rest (together they are a
permutation of the collected candidates), and the victim's
`lastUsedAtIndex/maxLastUsedIndex + usageCountIndex/maxUsageCountIndex`
score is minimal among all indexed candidates. -/
theorem prune_gc_single_victim_c3 (toDelete : List DRec) (hne : toDelete ≠ []) :
    ∃ sel rest,
      (sortDeleteRecords toDelete).1 = sel :: rest ∧
      gcModePass toDelete = ([sel], rest) ∧
      List.Perm (sel.drec :: rest.map IRec.drec) toDelete ∧
      (∀ x ∈ sel :: rest,
        scoreQ (sortDeleteRecords toDelete).2.1 (sortDeleteRecords toDelete).2.2 sel ≤
          scoreQ (sortDeleteRecords toDelete).2.1 (sortDeleteRecords toDelete).2.2 x) := by
  have hperm : List.Perm ((sortDeleteRecords toDelete).1.map IRec.drec) toDelete := by
    unfold sortDeleteRecords
    refine ((sortBy_perm _ _).map IRec.drec).trans ?_
    rw [assignUc_map_rec]
    refine ((sortBy_perm _ _).map IRec.drec).trans ?_
    rw [assignLu_map_rec]
    exact sortBy_perm _ _
  cases hL : (sortDeleteRecords toDelete).1 with
  | nil =>
    rw [hL] at hperm
    exact absurd hperm.symm.eq_nil hne
  | cons sel rest =>
    refine ⟨sel, rest, rfl, ?_, ?_, ?_⟩
    · unfold gcModePass
      rw [hL]
      rfl
    · rw [hL] at hperm
      exact hperm
    · have hsort : sortBy (fun a b => decide
          (scoreQ (sortDeleteRecords toDelete).2.1 (sortDeleteRecords toDelete).2.2 a <
           scoreQ (sortDeleteRecords toDelete).2.1 (sortDeleteRecords toDelete).2.2 b))
          (assignUc (sortBy ltUsage (assignLu (sortBy ltLastUsed toDelete) 0 0).1) 0 0).1
          = sel :: rest := by
        rw [← hL]
        rfl
      intro x hx
      have hmem : x ∈ (assignUc (sortBy ltUsage
          (assignLu (sortBy ltLastUsed toDelete) 0 0).1) 0 0).1 := by
        have hp := sortBy_perm (fun a b => decide
          (scoreQ (sortDeleteRecords toDelete).2.1 (sortDeleteRecords toDelete).2.2 a <
           scoreQ (sortDeleteRecords toDelete).2.1 (sortDeleteRecords toDelete).2.2 b))
          (assignUc (sortBy ltUsage (assignLu (sortBy ltLastUsed toDelete) 0 0).1) 0 0).1
        rw [hsort] at hp
        exact hp.mem_iff.mp (by rw [← hL] at hx; rw [hL] at hx; exact hx)
      exact sortBy_head_min _ _ sel rest hsort x hmem

/-- Witness for C3: three concrete candidates; the pass deletes exactly
the lowest-scored one and leaves the other two. -/
theorem prune_gc_single_victim_c3_witness :
    ∃ sel rest,
      (sortDeleteRecords [⟨"a", some 3, 1⟩, ⟨"b", some 1, 5⟩, ⟨"c", some 2, 2⟩]).1
        = sel :: rest ∧
      gcModePass [⟨"a", some 3, 1⟩, ⟨"b", some 1, 5⟩, ⟨"c", some 2, 2⟩] = ([sel], rest) ∧
      List.Perm (sel.drec :: rest.map IRec.drec)
        [⟨"a", some 3, 1⟩, ⟨"b", some 1, 5⟩, ⟨"c", some 2, 2⟩] ∧
      (∀ x ∈ sel :: rest,
        scoreQ (sortDeleteRecords [⟨"a", some 3, 1⟩, ⟨"b", some 1, 5⟩, ⟨"c", some 2, 2⟩]).2.1
            (sortDeleteRecords [⟨"a", some 3, 1⟩, ⟨"b", some 1, 5⟩, ⟨"c", some 2, 2⟩]).2.2 sel ≤
          scoreQ (sortDeleteRecords [⟨"a", some 3, 1⟩, ⟨"b", some 1, 5⟩, ⟨"c", some 2, 2⟩]).2.1
            (sortDeleteRecords [⟨"a", some 3, 1⟩, ⟨"b", some 1, 5⟩, ⟨"c", some 2, 2⟩]).2.2 x) :=
  prune_gc_single_victim_c3 [⟨"a", some 3, 1⟩, ⟨"b", some 1, 5⟩, ⟨"c", some 2, 2⟩]
    (by simp)

/-! ## C4: the prune loop (`refs.go` lines 2172-2367) -/

/-- A record as seen by the prune loop.  `prunable` abstracts the
per-record filters (record type, shared, keepDuration cutoff, filter
expression, lines 2203-2239); `size` is the record's computed size (the
loop warms the size cache before deleting, lines 2294-2307).  Record ids
are unique, as in the manager's record map. -/
structure PRec where
  id : String
  refs : Nat
  dead : Bool
  prunable : Bool
  size : Int
  lastUsedAt : Option Nat
  usageCount : Nat
  deriving Repr, DecidableEq

/-- Candidate collection (lines 2186-2264): records with no refs that are
not dead and pass the filters. -/
def pruneCandidates (records : List PRec) : List PRec :=
  records.filter (fun r => !r.dead && r.refs == 0 && r.prunable)

/-- Projection onto the fields `sortDeleteRecords` scores. -/
def toDRec (r : PRec) : DRec := ⟨r.id, r.lastUsedAt, r.usageCount⟩

theorem length_filter_lt_of_mem_not (l : List α) (p : α → Bool) (x : α)
    (hx : x ∈ l) (hpx : p x = false) : (l.filter p).length < l.length := by
  induction l with
  | nil => cases hx
  | cons y ys ih =>
    rcases List.mem_cons.mp hx with h1 | h1
    · subst h1
      have := List.length_filter_le p ys
      simp only [List.filter_cons, hpx, Bool.false_eq_true, if_false, List.length_cons]
      omega
    · rw [List.filter_cons]
      by_cases hy : p y = true
      · rw [if_pos hy]
        simp only [List.length_cons]
        exact Nat.succ_lt_succ (ih h1)
      · rw [if_neg hy]
        simp only [List.length_cons]
        exact Nat.lt_succ_of_lt (ih h1)

/-- The ids a prune pass deletes (lines 2240-2286): in GC mode
(`keepBytes ≠ 0`) only the lowest-scored candidate, otherwise every
candidate. -/
def pruneVictims (keepBytes : Int) (cands : List PRec) : List String :=
  if keepBytes ≠ 0 then
    ((sortDeleteRecords (cands.map toDRec)).1.take 1).map (fun i => i.drec.id)
  else cands.map (fun r => r.id)

theorem prune_victim_mem (keepBytes : Int) (records : List PRec)
    (hc : pruneCandidates records ≠ []) :
    ∃ r ∈ records,
      (pruneVictims keepBytes (pruneCandidates records)).contains r.id = true := by
  cases hcand : pruneCandidates records with
  | nil => exact absurd hcand hc
  | cons c cs =>
    have hcmem : c ∈ records := by
      have : c ∈ pruneCandidates records := by rw [hcand]; exact List.mem_cons_self c cs
      exact List.mem_of_mem_filter this
    unfold pruneVictims
    by_cases hkb : keepBytes ≠ 0
    · rw [if_pos hkb]
      obtain ⟨sel, rest, hL, _, hperm, _⟩ :=
        prune_gc_single_victim_c3 ((c :: cs).map toDRec) (by simp)
      rw [hL]
      have hselmem : sel.drec ∈ (c :: cs).map toDRec :=
        hperm.symm.mem_iff.mpr (List.mem_cons_self _ _)
      obtain ⟨r, hrmem, hrid⟩ := List.mem_map.mp hselmem
      have hrrec : r ∈ records := by
        have : r ∈ pruneCandidates records := by rw [hcand]; exact hrmem
        exact List.mem_of_mem_filter this
      refine ⟨r, hrrec, ?_⟩
      have : r.id = sel.drec.id := by rw [← hrid]; rfl
      simp [this]
    · rw [if_neg hkb]
      refine ⟨c, hcmem, ?_⟩
      simp

/-- `cacheManager.prune` (lines 2172-2367): return immediately when
`keepBytes` is non-zero and `totalSize` is strictly below it; collect
candidates and return when there are none; otherwise delete the single
lowest-scored candidate in GC mode (`keepBytes ≠ 0`) or every candidate in
immediate mode, subtract the freed sizes from `totalSize`, and loop.
Returns the surviving records, the final total size, and the deleted ids
in deletion order. -/
def prune (keepBytes : Int) (totalSize : Int) (records : List PRec) :
    List PRec × Int × List String :=
  if keepBytes ≠ 0 ∧ totalSize < keepBytes then (records, totalSize, [])
  else
    if hc : pruneCandidates records = [] then (records, totalSize, [])
    else
      let victims := pruneVictims keepBytes (pruneCandidates records)
      let newRecords := records.filter (fun r => !(victims.contains r.id))
      let freed := ((records.filter (fun r => victims.contains r.id)).map
        (fun r => r.size)).sum
      let out := prune keepBytes (totalSize - freed) newRecords
      (out.1, out.2.1, victims ++ out.2.2)
termination_by records.length
decreasing_by
  obtain ⟨r, hrmem, hrid⟩ := prune_victim_mem keepBytes records hc
  exact length_filter_lt_of_mem_not records _ r hrmem (by simpa using hrid)

/-- Counterexample to C4 as stated: with `keepBytes = 5` and
`totalSize = 5` the budget is already met (`totalSize ≤ keepBytes`), yet
the loop's guard is the strict `totalSize < keepBytes` (line 2175), so a
pass still runs and deletes a candidate instead of stopping. -/
theorem prune_stop_c4_counterexample :
    ((5 : Int) ≤ 5) ∧
    (prune 5 5 [⟨"r", 0, false, true, 5, some 1, 1⟩]).2.2 = ["r"] := by
  refine ⟨le_refl _, ?_⟩
  rw [prune]
  norm_num [pruneCandidates, pruneVictims, toDRec, sortDeleteRecords, sortBy, insertBy,
    assignLu, assignUc]
  rw [prune]
  norm_num

/-- C4 (amended).  The prune loop stops as soon as `totalSize` is strictly
below `keepBytes` (not merely `≤`), deleting nothing; it always
terminates (the model is a total function); and on return either the
final total size is strictly below `keepBytes` or no prunable candidates
remain (for `keepBytes = 0`, no candidates remain). -/
theorem prune_budget_c4 (keepBytes totalSize : Int) (records : List PRec) :
    (keepBytes ≠ 0 → totalSize < keepBytes →
      prune keepBytes totalSize records = (records, totalSize, [])) ∧
    (keepBytes ≠ 0 → (prune keepBytes totalSize records).2.1 < keepBytes ∨
      pruneCandidates (prune keepBytes totalSize records).1 = []) ∧
    (keepBytes = 0 → pruneCandidates (prune keepBytes totalSize records).1 = []) := by
  refine prune.induct keepBytes (fun totalSize records =>
    (keepBytes ≠ 0 → totalSize < keepBytes →
      prune keepBytes totalSize records = (records, totalSize, [])) ∧
    (keepBytes ≠ 0 → (prune keepBytes totalSize records).2.1 < keepBytes ∨
      pruneCandidates (prune keepBytes totalSize records).1 = []) ∧
    (keepBytes = 0 → pruneCandidates (prune keepBytes totalSize records).1 = []))
    ?_ ?_ ?_ totalSize records
  · intro ts recs h
    rw [prune, if_pos h]
    exact ⟨fun _ _ => rfl, fun _ => Or.inl h.2, fun hz => absurd hz h.1⟩
  · intro ts recs h hc
    rw [prune, if_neg h, dif_pos hc]
    exact ⟨fun h1 h2 => absurd ⟨h1, h2⟩ h, fun _ => Or.inr hc, fun _ => hc⟩
  · intro ts recs h hc victims newRecords freed ih
    rw [prune, if_neg h, dif_neg hc]
    exact ⟨fun h1 h2 => absurd ⟨h1, h2⟩ h, fun hkb => ih.2.1 hkb, fun hz => ih.2.2 hz⟩

/-- Witness for C4 (amended): below budget the loop deletes nothing, and
a concrete over-budget run ends strictly below budget or with no
candidates. -/
theorem prune_budget_c4_witness :
    prune 5 3 [] = ([], 3, []) ∧
    ((prune 5 7 [⟨"r", 0, false, true, 5, some 1, 1⟩]).2.1 < 5 ∨
      pruneCandidates (prune 5 7 [⟨"r", 0, false, true, 5, some 1, 1⟩]).1 = []) := by
  constructor
  · exact (prune_budget_c4 5 3 []).1 (by norm_num) (by norm_num)
  · exact (prune_budget_c4 5 7 [⟨"r", 0, false, true, 5, some 1, 1⟩]).2.1 (by norm_num)

/-! ## C8: the applier's delete phase (`applyDelete`, part_001 lines 254-300)

File modes use the Linux `stat` constants: `S_IFMT = 0o170000`,
`S_IFDIR = 0o040000`, `S_IFCHR = 0o020000`, `S_IFBLK = 0o060000`,
`S_IFREG = 0o100000`, `S_IFLNK = 0o120000`, `S_IFSOCK = 0o140000`,
`S_IFIFO = 0o010000`. -/

def sIFMT : Nat := 0o170000
def sIFDIR : Nat := 0o040000
def sIFCHR : Nat := 0o020000
def sIFBLK : Nat := 0o060000
def sIFREG : Nat := 0o100000
def sIFSOCK : Nat := 0o140000

/-- `fs.ChangeKind`. -/
inductive ChangeKind where
  | Add
  | Modify
  | Delete
  | Unmodified
  deriving Repr, DecidableEq

/-- The fields of `syscall.Stat_t` the delete phase reads. -/
structure StatT where
  mode : Nat
  rdev : Nat
  deriving Repr, DecidableEq

/-- `changeApply` (part_001 lines 113-117): the change being applied plus
the stat of the existing destination entry (`none` when absent). -/
structure ChangeApply where
  kind : ChangeKind
  subpath : String
  srcStat : Option StatT
  srcpath : String
  dstStat : Option StatT
  deriving Repr, DecidableEq

/-- The mode of an optional stat; Go dereferences `srcStat` directly in
the overwrite test (the differ always populates it for non-delete
changes). -/
def statModeD (o : Option StatT) : Nat := (o.getD ⟨0, 0⟩).mode

/-- `applier.applyDelete` (part_001 lines 254-300).  `cwd` is
`createWhiteoutDelete` (true for overlay destinations) and `lowerdirs`
the per-lowerdir path sets consulted by the whiteout check.  Returns
`(done, removedDst, ca')`: whether the change is finished, whether
`rmRf(dstpath)` ran, and the possibly rewritten change. -/
def applyDelete (cwd : Bool) (lowerdirs : List (List String)) (ca : ChangeApply) :
    Bool × Bool × ChangeApply :=
  let deleteOnly := decide (ca.kind = ChangeKind.Delete)
  let overwrite := !deleteOnly && ca.dstStat.isSome &&
    decide ((statModeD ca.srcStat &&& statModeD ca.dstStat &&& sIFMT) ≠ sIFDIR)
  if !deleteOnly && !overwrite then
    (false, false, ca)
  else
    let ca1 : ChangeApply := { ca with dstStat := none }
    if deleteOnly && cwd then
      let foundLower := lowerdirs.any (fun dir => dir.contains ca.subpath)
      if foundLower then
        let ca2 : ChangeApply :=
          if ca1.srcStat = none then
            { ca1 with kind := ChangeKind.Add, srcStat := some ⟨sIFCHR, 0⟩, srcpath := "" }
          else { ca1 with kind := ChangeKind.Add }
        (false, true, ca2)
      else (deleteOnly, true, ca1)
    else (deleteOnly, true, ca1)

/-- C8 is a code bug.  The claim (and the code's own comment, part_001
lines 255-257) requires a non-delete overwrite to remove `dstpath`
whenever source and destination are not both directories, but the test
`srcMode & dstMode & S_IFMT != S_IFDIR` misfires whenever the two type
nibbles share the `0o040000` bit: a block device (`0o060000`) overwriting
a socket (`0o140000`) satisfies "not both directories" yet
`0o060000 & 0o140000 & 0o170000 = 0o040000 = S_IFDIR`, so no removal
happens and the change falls through with the stale destination in place.
The delete/whiteout half of the claim behaves as stated: a Delete removes
`dstpath` and re-emits a char(0,0) whiteout `Add` exactly when some
lowerdir contains the subpath. -/
theorem applyDelete_c8_code_bug :
    (sIFBLK &&& sIFMT ≠ sIFDIR) ∧
    (sIFSOCK &&& sIFMT ≠ sIFDIR) ∧
    (sIFBLK &&& sIFSOCK &&& sIFMT = sIFDIR) ∧
    (applyDelete true [["p"]]
        ⟨ChangeKind.Modify, "p", some ⟨sIFBLK, 0⟩, "src", some ⟨sIFSOCK, 0⟩⟩
      = (false, false,
        ⟨ChangeKind.Modify, "p", some ⟨sIFBLK, 0⟩, "src", some ⟨sIFSOCK, 0⟩⟩)) ∧
    (applyDelete true [["p"]]
        ⟨ChangeKind.Delete, "p", none, "", some ⟨sIFREG, 0⟩⟩
      = (false, true,
        ⟨ChangeKind.Add, "p", some ⟨sIFCHR, 0⟩, "", none⟩)) ∧
    (applyDelete true [["q"]]
        ⟨ChangeKind.Delete, "p", none, "", some ⟨sIFREG, 0⟩⟩
      = (true, true, ⟨ChangeKind.Delete, "p", none, "", none⟩)) := by
  refine ⟨by decide, by decide, by decide, ?_, ?_, ?_⟩ <;> rfl

/-! ## C9: `DiskUsage` refcount propagation (`refs.go` lines 2417-2488)

The in-memory map `m : map[string]*cacheUsageInfo` is modelled as a list
of entries with unique ids; the `rescan` set driven by Go's (unspecified)
map iteration order is modelled as a worklist queue with set-semantics
insertion, one deterministic schedule of the loop at lines 2471-2488.
Records are assumed not to be their own parents (the record graph is a
DAG).  `refs` is an `int` in Go and may go negative during propagation. -/

/-- One entry of DiskUsage's in-memory map (`cacheUsageInfo`, line 2402):
`refs` starts as the number of live handles on the record (line 2438). -/
structure URec where
  id : String
  refs : Int
  parents : List String
  doubleRef : Bool
  deriving Repr, DecidableEq

/-- Map lookup `m[id]`. -/
def findU (m : List URec) (i : String) : Option URec :=
  m.find? (fun u => u.id == i)

/-- `m[p].refs -= w` (lines 2479-2482; `w` is 1, or 2 with `doubleRef`).
A missing parent id leaves the map unchanged (Go would fault; `DiskUsage`
only runs on maps whose parent ids are all present). -/
def decBy (m : List URec) (p : String) (w : Int) : List URec :=
  m.map (fun u => if u.id = p then { u with refs := u.refs - w } else u)

/-- Current refcount of `i` (0 when absent). -/
def refsOf (m : List URec) (i : String) : Int :=
  match findU m i with
  | some u => u.refs
  | none => 0

/-- Parent ids of `i` (empty when absent). -/
def parentsOf (m : List URec) (i : String) : List String :=
  match findU m i with
  | some u => u.parents
  | none => []

/-- `doubleRef` of `i` (false when absent). -/
def dblOf (m : List URec) (i : String) : Bool :=
  match findU m i with
  | some u => u.doubleRef
  | none => false

/-- The total amount subtracted from `i`'s refcount by the records in
`zs` propagating their zero refcount: each occurrence of `i` among a
propagating record's parents costs 1, or 2 with `doubleRef`. -/
def zeroDecSum (m : List URec) (zs : List String) (i : String) : Int :=
  (zs.map (fun z => ((parentsOf m z).count i : Int) * (if dblOf m z then 2 else 1))).sum

/-- The rescan loop (lines 2471-2488), fuelled: pop an id; if its
refcount is zero, decrement every parent (twice under `doubleRef`),
enqueue the parents, and record the id as having propagated; otherwise
drop it.  Returns the final map and the propagated ids in order, or
`none` when the fuel runs out. -/
def diskUsageScan : Nat → List URec → List String → List String →
    Option (List URec × List String)
  | 0, m, ws, zs => if ws = [] then some (m, zs) else none
  | _ + 1, m, [], zs => some (m, zs)
  | fuel + 1, m, i :: rest, zs =>
    match findU m i with
    | none => diskUsageScan fuel m rest zs
    | some u =>
      if u.refs = 0 then
        let w : Int := if u.doubleRef then 2 else 1
        let m2 := u.parents.foldl (fun acc p => decBy acc p w) m
        let ws2 := u.parents.foldl
          (fun acc p => if acc.contains p then acc else acc ++ [p]) rest
        diskUsageScan fuel m2 ws2 (zs ++ [i])
      else diskUsageScan fuel m rest zs

/-- The full propagation (lines 2425-2488): every id starts in `rescan`. -/
def diskUsagePropagate (fuel : Nat) (m : List URec) :
    Option (List URec × List String) :=
  diskUsageScan fuel m (m.map (fun u => u.id)) []

theorem findU_map (f : URec → URec) (hf : ∀ u, (f u).id = u.id) (m : List URec)
    (i : String) : findU (m.map f) i = (findU m i).map f := by
  induction m with
  | nil => rfl
  | cons h t ih =>
    unfold findU at ih ⊢
    simp only [List.map_cons, List.find?_cons]
    by_cases hi : (h.id == i) = true
    · have h2 : ((f h).id == i) = true := by rw [hf h]; exact hi
      simp [hi, h2]
    · have h2 : ((f h).id == i) = false := by rw [hf h]; simpa using hi
      simp only [hi, Bool.false_eq_true, if_false, h2]
      exact ih

theorem findU_decBy (m : List URec) (p : String) (w : Int) (i : String) :
    findU (decBy m p w) i
      = (findU m i).map (fun u => if u.id = p then { u with refs := u.refs - w } else u) := by
  unfold decBy
  exact findU_map _ (fun u => by by_cases h : u.id = p <;> simp [h]) m i

theorem findU_id (m : List URec) (i : String) (u : URec) (h : findU m i = some u) :
    u.id = i := by
  have := List.find?_some h
  simpa using this

theorem findU_mem (m : List URec) (i : String) (u : URec) (h : findU m i = some u) :
    u ∈ m := List.mem_of_find?_eq_some h

theorem parentsOf_decBy (m : List URec) (p : String) (w : Int) (i : String) :
    parentsOf (decBy m p w) i = parentsOf m i := by
  unfold parentsOf
  rw [findU_decBy]
  cases findU m i with
  | none => rfl
  | some u => by_cases h : u.id = p <;> simp [h]

theorem dblOf_decBy (m : List URec) (p : String) (w : Int) (i : String) :
    dblOf (decBy m p w) i = dblOf m i := by
  unfold dblOf
  rw [findU_decBy]
  cases findU m i with
  | none => rfl
  | some u => by_cases h : u.id = p <;> simp [h]

theorem isSome_decBy (m : List URec) (p : String) (w : Int) (i : String) :
    (findU (decBy m p w) i).isSome = (findU m i).isSome := by
  rw [findU_decBy]
  cases findU m i <;> rfl

theorem refsOf_decBy (m : List URec) (p : String) (w : Int) (i : String)
    (hpres : p = i → (findU m i).isSome = true) :
    refsOf (decBy m p w) i = refsOf m i - (if p = i then w else 0) := by
  unfold refsOf
  rw [findU_decBy]
  cases hf : findU m i with
  | none =>
    by_cases h : p = i
    · have := hpres h
      rw [hf] at this
      cases this
    · simp [h]
  | some u =>
    have hid := findU_id m i u hf
    by_cases h : p = i
    · rw [if_pos h]
      have : u.id = p := by rw [hid, h]
      simp [this]
    · rw [if_neg h]
      have : u.id ≠ p := by rw [hid]; exact fun hc => h hc.symm
      simp [this]

theorem parentsOf_decFold (ps : List String) (m : List URec) (w : Int) (i : String) :
    parentsOf (ps.foldl (fun acc p => decBy acc p w) m) i = parentsOf m i := by
  induction ps generalizing m with
  | nil => rfl
  | cons p rest ih =>
    simp only [List.foldl_cons]
    rw [ih, parentsOf_decBy]

theorem dblOf_decFold (ps : List String) (m : List URec) (w : Int) (i : String) :
    dblOf (ps.foldl (fun acc p => decBy acc p w) m) i = dblOf m i := by
  induction ps generalizing m with
  | nil => rfl
  | cons p rest ih =>
    simp only [List.foldl_cons]
    rw [ih, dblOf_decBy]

theorem isSome_decFold (ps : List String) (m : List URec) (w : Int) (i : String) :
    (findU (ps.foldl (fun acc p => decBy acc p w) m) i).isSome = (findU m i).isSome := by
  induction ps generalizing m with
  | nil => rfl
  | cons p rest ih =>
    simp only [List.foldl_cons]
    rw [ih, isSome_decBy]

theorem refsOf_decFold (ps : List String) (m : List URec) (w : Int) (i : String)
    (hpres : i ∈ ps → (findU m i).isSome = true) :
    refsOf (ps.foldl (fun acc p => decBy acc p w) m) i
      = refsOf m i - (ps.count i : Int) * w := by
  induction ps generalizing m with
  | nil => simp [List.count_nil]
  | cons p rest ih =>
    simp only [List.foldl_cons]
    have hpres2 : i ∈ rest → (findU (decBy m p w) i).isSome = true := by
      intro hmem
      rw [isSome_decBy]
      exact hpres (List.mem_cons_of_mem p hmem)
    rw [ih (decBy m p w) hpres2]
    rw [refsOf_decBy m p w i (fun hpi => hpres (by rw [← hpi]; exact List.mem_cons_self p rest))]
    by_cases h : p = i
    · have hcount : (p :: rest).count i = rest.count i + 1 := by
        rw [List.count_cons]
        simp [h]
      rw [hcount, if_pos h]
      push_cast
      ring
    · have hcount : (p :: rest).count i = rest.count i := by
        rw [List.count_cons]
        simp [h]
      rw [hcount, if_neg h]
      ring

theorem zeroDecSum_nil (m : List URec) (i : String) : zeroDecSum m [] i = 0 := rfl

theorem zeroDecSum_cons (m : List URec) (z : String) (zs : List String) (i : String) :
    zeroDecSum m (z :: zs) i
      = ((parentsOf m z).count i : Int) * (if dblOf m z then 2 else 1)
        + zeroDecSum m zs i := by
  unfold zeroDecSum
  simp [List.map_cons, List.sum_cons]

theorem zeroDecSum_congr (m1 m2 : List URec) (zs : List String) (i : String)
    (hp : ∀ j, parentsOf m1 j = parentsOf m2 j)
    (hd : ∀ j, dblOf m1 j = dblOf m2 j) :
    zeroDecSum m1 zs i = zeroDecSum m2 zs i := by
  unfold zeroDecSum
  congr 1
  exact List.map_congr_left (fun z _ => by rw [hp z, hd z])

theorem zeroDecSum_nonneg (m : List URec) (zs : List String) (i : String) :
    0 ≤ zeroDecSum m zs i := by
  unfold zeroDecSum
  refine List.sum_nonneg ?_
  intro x hx
  obtain ⟨z, _, hz⟩ := List.mem_map.mp hx
  rw [← hz]
  have h1 : (0 : Int) ≤ ((parentsOf m z).count i : Int) := Int.natCast_nonneg _
  have h2 : (0 : Int) ≤ (if dblOf m z then 2 else 1) := by
    by_cases h : dblOf m z <;> simp [h]
  exact mul_nonneg h1 h2

theorem mem_decFold_parents (ps : List String) (m : List URec) (w : Int) (v : URec)
    (hv : v ∈ ps.foldl (fun acc p => decBy acc p w) m) :
    ∃ u3 ∈ m, u3.parents = v.parents := by
  induction ps generalizing m with
  | nil => exact ⟨v, by simpa using hv, rfl⟩
  | cons q qs ihq =>
    simp only [List.foldl_cons] at hv
    obtain ⟨u3, hu3, hpar⟩ := ihq (decBy m q w) hv
    unfold decBy at hu3
    obtain ⟨u4, hu4, hu4e⟩ := List.mem_map.mp hu3
    rw [← hu4e] at hpar
    refine ⟨u4, hu4, ?_⟩
    by_cases hq : u4.id = q
    · rw [if_pos hq] at hpar
      simpa using hpar
    · rw [if_neg hq] at hpar
      exact hpar

theorem diskUsageScan_spec (fuel : Nat) :
    ∀ (m : List URec) (ws zs0 : List String) (out : List URec) (zs : List String),
    (∀ u ∈ m, ∀ p ∈ u.parents, (findU m p).isSome = true) →
    diskUsageScan fuel m ws zs0 = some (out, zs) →
    (∀ i, parentsOf out i = parentsOf m i) ∧
    (∀ i, dblOf out i = dblOf m i) ∧
    (∀ i, (findU out i).isSome = (findU m i).isSome) ∧
    ∃ suffix, zs = zs0 ++ suffix ∧
      (∀ i, refsOf out i = refsOf m i - zeroDecSum m suffix i) ∧
      (∀ z ∈ suffix, refsOf out z ≤ 0) := by
  induction fuel with
  | zero =>
    intro m ws zs0 out zs hclosed h
    unfold diskUsageScan at h
    by_cases hws : ws = []
    · rw [if_pos hws] at h
      injection h with h1
      injection h1 with h1 h2
      subst h1; subst h2
      refine ⟨fun i => rfl, fun i => rfl, fun i => rfl, [], by simp, fun i => by
        rw [zeroDecSum_nil]; ring, fun z hz => absurd hz (List.not_mem_nil z)⟩
    · rw [if_neg hws] at h
      cases h
  | succ fuel ih =>
    intro m ws zs0 out zs hclosed h
    cases ws with
    | nil =>
      unfold diskUsageScan at h
      injection h with h1
      injection h1 with h1 h2
      subst h1; subst h2
      refine ⟨fun i => rfl, fun i => rfl, fun i => rfl, [], by simp, fun i => by
        rw [zeroDecSum_nil]; ring, fun z hz => absurd hz (List.not_mem_nil z)⟩
    | cons i rest =>
      unfold diskUsageScan at h
      cases hf : findU m i with
      | none =>
        rw [hf] at h
        dsimp only at h
        exact ih m rest zs0 out zs hclosed h
      | some u =>
        rw [hf] at h
        dsimp only at h
        by_cases hz : u.refs = 0
        · rw [if_pos hz] at h
          set w : Int := if u.doubleRef then 2 else 1 with hw
          set m2 := u.parents.foldl (fun acc p => decBy acc p w) m with hm2
          set ws2 := u.parents.foldl
            (fun acc p => if acc.contains p then acc else acc ++ [p]) rest with hws2
          have hclosed2 : ∀ v ∈ m2, ∀ p ∈ v.parents, (findU m2 p).isSome = true := by
            intro v hv p hp
            rw [hm2, isSome_decFold]
            rw [hm2] at hv
            obtain ⟨u3, hu3, hpar⟩ := mem_decFold_parents u.parents m w v hv
            exact hclosed u3 hu3 p (by rw [hpar]; exact hp)
          obtain ⟨hp2, hd2, hs2, suffix, hsuf, hrefs, hneg⟩ :=
            ih m2 ws2 (zs0 ++ [i]) out zs hclosed2 h
          have hparstable : ∀ j, parentsOf m2 j = parentsOf m j := by
            intro j; rw [hm2, parentsOf_decFold]
          have hdblstable : ∀ j, dblOf m2 j = dblOf m j := by
            intro j; rw [hm2, dblOf_decFold]
          have hsomestable : ∀ j, (findU m2 j).isSome = (findU m j).isSome := by
            intro j; rw [hm2, isSome_decFold]
          have hui : u.id = i := findU_id m i u hf
          have hupar : parentsOf m i = u.parents := by
            unfold parentsOf; rw [hf]
          have hudbl : dblOf m i = u.doubleRef := by
            unfold dblOf; rw [hf]
          have hurefs : refsOf m i = 0 := by
            unfold refsOf; rw [hf]; exact hz
          have hrefs_m2 : ∀ j, refsOf m2 j = refsOf m j - (u.parents.count j : Int) * w := by
            intro j
            rw [hm2]
            refine refsOf_decFold u.parents m w j (fun hmem => ?_)
            exact hclosed u (findU_mem m i u hf) j hmem
          refine ⟨fun j => (hp2 j).trans (hparstable j),
            fun j => (hd2 j).trans (hdblstable j),
            fun j => (hs2 j).trans (hsomestable j),
            i :: suffix, by rw [hsuf, List.append_assoc]; rfl, ?_, ?_⟩
          · intro j
            have hz2 : zeroDecSum m2 suffix j = zeroDecSum m suffix j :=
              zeroDecSum_congr m2 m suffix j hparstable hdblstable
            rw [hrefs j, hz2, hrefs_m2 j, zeroDecSum_cons, hupar, hudbl, ← hw]
            ring
          · intro z hzmem
            rcases List.mem_cons.mp hzmem with h1 | h1
            · subst h1
              have := hrefs z
              rw [hrefs_m2 z, hurefs] at this
              have hzn := zeroDecSum_nonneg m2 suffix z
              have hcn : (0 : Int) ≤ (u.parents.count z : Int) * w := by
                refine mul_nonneg (Int.natCast_nonneg _) ?_
                rw [hw]
                by_cases hq : u.doubleRef <;> simp [hq]
              omega
            · exact hneg z h1
        · rw [if_neg hz] at h
          exact ih m rest zs0 out zs hclosed h

/-- C9.  `DiskUsage` seeds each record's `refs` with its number of live
handles and propagates: exactly the records observed at refcount zero
(the returned `zs`, in schedule order) decrement each of their parents'
refcounts once per parent occurrence, twice when `doubleRef` is set, and
nothing else changes: parents, `doubleRef`, and map membership are
untouched, the final refcount of every id equals its initial count minus
the weighted contributions of the zero-propagated children, and every
propagated record ends with refcount at most zero (a child counts toward
its parents only while it itself is referenced). -/
theorem diskUsage_propagation_c9 (fuel : Nat) (m out : List URec) (zs : List String)
    (hclosed : ∀ u ∈ m, ∀ p ∈ u.parents, (findU m p).isSome = true)
    (h : diskUsagePropagate fuel m = some (out, zs)) :
    (∀ i, parentsOf out i = parentsOf m i ∧ dblOf out i = dblOf m i ∧
      (findU out i).isSome = (findU m i).isSome) ∧
    (∀ i, refsOf out i = refsOf m i - zeroDecSum m zs i) ∧
    (∀ z ∈ zs, refsOf out z ≤ 0) := by
  unfold diskUsagePropagate at h
  obtain ⟨hp, hd, hs, suffix, hsuf, hrefs, hneg⟩ :=
    diskUsageScan_spec fuel m (m.map (fun u => u.id)) [] out zs hclosed h
  have : suffix = zs := by rw [hsuf]; rfl
  subst this
  exact ⟨fun i => ⟨hp i, hd i, hs i⟩, hrefs, hneg⟩

/-- Witness for C9: an unreferenced child decrements its parent, which
then propagates in turn. -/
theorem diskUsage_propagation_c9_witness :
    refsOf [⟨"child", 0, ["parent"], false⟩, ⟨"parent", 1, [], false⟩] "parent"
        - zeroDecSum [⟨"child", 0, ["parent"], false⟩, ⟨"parent", 1, [], false⟩]
            ["child", "parent"] "parent" = 0 ∧
    (∀ i, refsOf [⟨"child", 0, ["parent"], false⟩, ⟨"parent", 0, [], false⟩] i
      = refsOf [⟨"child", 0, ["parent"], false⟩, ⟨"parent", 1, [], false⟩] i
        - zeroDecSum [⟨"child", 0, ["parent"], false⟩, ⟨"parent", 1, [], false⟩]
            ["child", "parent"] i) := by
  have h := diskUsage_propagation_c9 6
    [⟨"child", 0, ["parent"], false⟩, ⟨"parent", 1, [], false⟩]
    [⟨"child", 0, ["parent"], false⟩, ⟨"parent", 0, [], false⟩]
    ["child", "parent"]
    (by decide)
    (by rfl)
  exact ⟨by decide, h.2.1⟩

/-! ## C7: `Extract` idempotence (`refs.go` lines 801-819, 949-1101)

The snapshotter and the record metadata mutated by `unlazy` are modelled
as explicit state: the set of existing snapshot ids (`Stat` succeeds on
members) and a per-record `blobOnly` flag.  Blob fetches
(`lazyRefProvider.Unlazy`), applier invocations, and `snapshotter.Merge`
calls are recorded as events.  The error-group concurrency of
`unlazyLayer`/`unlazyDiffMerge` is sequentialized, and the single-flight
group means each unlazy runs at most once at a time; recursion is fuelled
(`none` = out of fuel). -/

/-- Observable side effects of an extract. -/
inductive Ev where
  | fetch (id : String)
  | apply (id snapId : String)
  | mergeSnap (id : String)
  deriving Repr, DecidableEq

/-- Snapshotter + metadata state: `snaps` is the set of snapshot ids for
which `Stat` succeeds, `blobOnly` the per-record-id flag (association
list, newest entry wins; absent means false). -/
structure XState where
  blobOnly : List (String × Bool)
  snaps : List String
  deriving Repr, DecidableEq

/-- `getBlobOnly` for record id `i`. -/
def XState.bo (s : XState) (i : String) : Bool := (s.blobOnly.lookup i).getD false

/-- `queueBlobOnly(v)` + `commitMetadata` for record id `i`. -/
def XState.setBo (s : XState) (i : String) (v : Bool) : XState :=
  { s with blobOnly := (i, v) :: s.blobOnly }

/-- `Snapshotter.Stat(sn)` succeeds. -/
def XState.hasSnap (s : XState) (sn : String) : Bool := s.snaps.contains sn

/-- `Snapshotter.Commit`/`Merge` producing snapshot `sn`. -/
def XState.addSnap (s : XState) (sn : String) : XState :=
  { s with snaps := sn :: s.snaps }


mutual

/-- `immutableRef.unlazy` (lines 949-964): a no-op when `Stat(snapshotID)`
succeeds; otherwise `unlazyDiffMerge` for merge/diff kinds (lines
967-1001: unlazy every constituent of `layerWalk`, then
`Snapshotter.Merge` into the record's snapshot id) and `unlazyLayer` for
layer kinds (lines 1004-1101: a no-op unless `blobOnly`; otherwise unlazy
the layer parent, fetch the blob, `Prepare`+`Apply`+`Commit`, then clear
`blobOnly`). -/
def unlazyF : Nat → Rec → XState → Option (XState × List Ev)
  | 0, _, _ => none
  | fuel + 1, r, s =>
    if s.hasSnap r.data.snapId then some (s, [])
    else if r.kind = RefKind.Merge ∨ r.kind = RefKind.Diff then
      match unlazyWalkF fuel (layerWalk r) s with
      | none => none
      | some (s1, ev) =>
        some (s1.addSnap r.data.snapId, ev ++ [Ev.mergeSnap r.data.id])
    else
      if s.bo r.data.id = false then some (s, [])
      else
        match (match r.layerParent with
               | some p => unlazyF fuel p s
               | none => some (s, [])) with
        | none => none
        | some (s1, ev1) =>
          some ((s1.addSnap r.data.snapId).setBo r.data.id false,
            ev1 ++ [Ev.fetch r.data.id, Ev.apply r.data.id r.data.snapId])

/-- One constituent of `unlazyDiffMerge`'s loop (lines 970-996): an
emitted diff record unlazies its lower and upper parents; an emitted
layer unlazies itself. -/
def unlazyStepF : Nat → Rec → XState → Option (XState × List Ev)
  | 0, _, _ => none
  | fuel + 1, e, s =>
    match e with
    | Rec.diff _ lo up =>
      match (match lo with
             | some l => unlazyF fuel l s
             | none => some (s, [])) with
      | none => none
      | some (s1, ev1) =>
        match up with
        | some u =>
          match unlazyF fuel u s1 with
          | none => none
          | some (s2, ev2) => some (s2, ev1 ++ ev2)
        | none => some (s1, ev1)
    | e => unlazyF fuel e s

/-- The walk of `unlazyDiffMerge` over the emitted constituents. -/
def unlazyWalkF : Nat → List Rec → XState → Option (XState × List Ev)
  | _, [], s => some (s, [])
  | 0, _ :: _, _ => none
  | fuel + 1, e :: rest, s =>
    match unlazyStepF fuel e s with
    | none => none
    | some (s1, ev1) =>
      match unlazyWalkF fuel rest s1 with
      | none => none
      | some (s2, ev2) => some (s2, ev1 ++ ev2)

end

/-- `immutableRef.Extract` (lines 801-819, non-stargz snapshotter): an
immediate no-op for a layer-kind record that is not `blobOnly`, otherwise
`unlazy`. -/
def extractF (fuel : Nat) (r : Rec) (s : XState) : Option (XState × List Ev) :=
  if (r.kind = RefKind.Layer ∨ r.kind = RefKind.BaseLayer) ∧ s.bo r.data.id = false then
    some (s, [])
  else unlazyF fuel r s

/-- Monotone effect of an unlazy run: snapshots only appear, `blobOnly`
only gets cleared, and every applier invocation leaves its record
non-`blobOnly` with its snapshot present. -/
def monoEv (s s1 : XState) (ev : List Ev) : Prop :=
  (∀ sn, s.hasSnap sn = true → s1.hasSnap sn = true) ∧
  (∀ i, s.bo i = false → s1.bo i = false) ∧
  (∀ i sn, Ev.apply i sn ∈ ev → s1.bo i = false ∧ s1.hasSnap sn = true)

theorem monoEv_refl (s : XState) : monoEv s s [] :=
  ⟨fun _ h => h, fun _ h => h, fun _ _ h => absurd h (List.not_mem_nil _)⟩

theorem monoEv_trans {s s1 s2 : XState} {ev1 ev2 : List Ev}
    (h1 : monoEv s s1 ev1) (h2 : monoEv s1 s2 ev2) : monoEv s s2 (ev1 ++ ev2) := by
  refine ⟨fun sn h => h2.1 sn (h1.1 sn h), fun i h => h2.2.1 i (h1.2.1 i h), ?_⟩
  intro i sn hm
  rcases List.mem_append.mp hm with hm | hm
  · obtain ⟨hb, hs⟩ := h1.2.2 i sn hm
    exact ⟨h2.2.1 i hb, h2.1 sn hs⟩
  · exact h2.2.2 i sn hm

theorem hasSnap_addSnap_self (s : XState) (sn : String) :
    (s.addSnap sn).hasSnap sn = true := by
  simp [XState.addSnap, XState.hasSnap]

theorem hasSnap_addSnap_of (s : XState) (sn x : String) (h : s.hasSnap x = true) :
    (s.addSnap sn).hasSnap x = true := by
  have hx : x ∈ s.snaps := by simpa [XState.hasSnap] using h
  simp [XState.addSnap, XState.hasSnap, hx]

theorem bo_addSnap (s : XState) (sn i : String) : (s.addSnap sn).bo i = s.bo i := rfl

theorem hasSnap_setBo (s : XState) (i : String) (v : Bool) (x : String) :
    (s.setBo i v).hasSnap x = s.hasSnap x := rfl

theorem bo_setBo (s : XState) (i : String) (v : Bool) (j : String) :
    (s.setBo i v).bo j = if j = i then v else s.bo j := by
  simp only [XState.setBo, XState.bo, List.lookup]
  by_cases h : j = i
  · simp [h]
  · simp [h, beq_false_of_ne h]

theorem unlazyStepF_zero (e : Rec) (s : XState) : unlazyStepF 0 e s = none := rfl

theorem unlazyStepF_diff (fuel : Nat) (d : RecData) (lo up : Option Rec) (s : XState) :
    unlazyStepF (fuel + 1) (Rec.diff d lo up) s
      = match (match lo with
               | some l => unlazyF fuel l s
               | none => some (s, [])) with
        | none => none
        | some (s1, ev1) =>
          match up with
          | some u =>
            match unlazyF fuel u s1 with
            | none => none
            | some (s2, ev2) => some (s2, ev1 ++ ev2)
          | none => some (s1, ev1) := rfl

theorem unlazyStepF_base (fuel : Nat) (d : RecData) (s : XState) :
    unlazyStepF (fuel + 1) (Rec.base d) s = unlazyF fuel (Rec.base d) s := rfl

theorem unlazyStepF_layer (fuel : Nat) (d : RecData) (p : Rec) (s : XState) :
    unlazyStepF (fuel + 1) (Rec.layer d p) s = unlazyF fuel (Rec.layer d p) s := rfl

theorem unlazyStepF_merge (fuel : Nat) (d : RecData) (p : Rec) (ps : List Rec)
    (s : XState) :
    unlazyStepF (fuel + 1) (Rec.merge d p ps) s
      = unlazyF fuel (Rec.merge d p ps) s := rfl

theorem unlazyWalkF_nil (fuel : Nat) (s : XState) :
    unlazyWalkF fuel [] s = some (s, []) := by
  cases fuel <;> rfl

theorem unlazyWalkF_zero_cons (e : Rec) (rest : List Rec) (s : XState) :
    unlazyWalkF 0 (e :: rest) s = none := rfl

theorem unlazyWalkF_cons (fuel : Nat) (e : Rec) (rest : List Rec) (s : XState) :
    unlazyWalkF (fuel + 1) (e :: rest) s
      = match unlazyStepF fuel e s with
        | none => none
        | some (s1, ev1) =>
          match unlazyWalkF fuel rest s1 with
          | none => none
          | some (s2, ev2) => some (s2, ev1 ++ ev2) := rfl

theorem unlazy_monoEv (fuel : Nat) :
    (∀ r s s1 ev, unlazyF fuel r s = some (s1, ev) → monoEv s s1 ev) ∧
    (∀ e s s1 ev, unlazyStepF fuel e s = some (s1, ev) → monoEv s s1 ev) ∧
    (∀ items s s1 ev, unlazyWalkF fuel items s = some (s1, ev) → monoEv s s1 ev) := by
  induction fuel with
  | zero =>
    refine ⟨fun r s s1 ev h => ?_, fun e s s1 ev h => ?_, fun items s s1 ev h => ?_⟩
    · unfold unlazyF at h
      cases h
    · rw [unlazyStepF_zero] at h
      cases h
    · cases items with
      | nil =>
        rw [unlazyWalkF_nil] at h
        injection h with h1
        injection h1 with ha hb
        subst ha; subst hb
        exact monoEv_refl s
      | cons e rest =>
        rw [unlazyWalkF_zero_cons] at h
        cases h
  | succ fuel ih =>
    refine ⟨fun r s s1 ev h => ?_, fun e s s1 ev h => ?_, fun items s s1 ev h => ?_⟩
    · unfold unlazyF at h
      by_cases h1 : s.hasSnap r.data.snapId = true
      · rw [if_pos h1] at h
        injection h with h1
        injection h1 with ha hb
        subst ha; subst hb
        exact monoEv_refl s
      · rw [if_neg h1] at h
        by_cases h2 : r.kind = RefKind.Merge ∨ r.kind = RefKind.Diff
        · rw [if_pos h2] at h
          cases hw : unlazyWalkF fuel (layerWalk r) s with
          | none => rw [hw] at h; cases h
          | some pr =>
            obtain ⟨s2, ev2⟩ := pr
            rw [hw] at h
            dsimp only at h
            injection h with h1
            injection h1 with ha hb
            subst ha; subst hb
            have hm := ih.2.2 (layerWalk r) s s2 ev2 hw
            refine ⟨fun sn hs => hasSnap_addSnap_of _ _ _ (hm.1 sn hs),
              fun i hb2 => by rw [bo_addSnap]; exact hm.2.1 i hb2, ?_⟩
            intro i sn hmem
            rcases List.mem_append.mp hmem with hmem | hmem
            · obtain ⟨hb2, hs2⟩ := hm.2.2 i sn hmem
              exact ⟨by rw [bo_addSnap]; exact hb2, hasSnap_addSnap_of _ _ _ hs2⟩
            · simp at hmem
        · rw [if_neg h2] at h
          by_cases h3 : s.bo r.data.id = false
          · rw [if_pos h3] at h
            injection h with h1
            injection h1 with ha hb
            subst ha; subst hb
            exact monoEv_refl s
          · rw [if_neg h3] at h
            have hpar : ∃ s2 ev1, (match r.layerParent with
                | some p => unlazyF fuel p s
                | none => some (s, [])) = some (s2, ev1) ∧ monoEv s s2 ev1 := by
              cases hlp : r.layerParent with
              | none => exact ⟨s, [], rfl, monoEv_refl s⟩
              | some p =>
                rw [hlp] at h
                dsimp only at h
                cases hu : unlazyF fuel p s with
                | none =>
                  rw [hu] at h
                  cases h
                | some pr =>
                  obtain ⟨s2, ev1⟩ := pr
                  exact ⟨s2, ev1, hu, ih.1 p s s2 ev1 hu⟩
            obtain ⟨s2, ev1, heq, hm⟩ := hpar
            rw [heq] at h
            dsimp only at h
            injection h with h1
            injection h1 with ha hb
            subst ha; subst hb
            refine ⟨?_, ?_, ?_⟩
            · intro sn hs
              rw [hasSnap_setBo]
              exact hasSnap_addSnap_of _ _ _ (hm.1 sn hs)
            · intro i hb2
              rw [bo_setBo, bo_addSnap]
              by_cases hij : i = r.data.id
              · simp [hij]
              · rw [if_neg hij]
                exact hm.2.1 i hb2
            · intro i sn hmem
              rcases List.mem_append.mp hmem with hmem | hmem
              · obtain ⟨hb2, hs2⟩ := hm.2.2 i sn hmem
                refine ⟨?_, ?_⟩
                · rw [bo_setBo, bo_addSnap]
                  by_cases hij : i = r.data.id
                  · simp [hij]
                  · rw [if_neg hij]; exact hb2
                · rw [hasSnap_setBo]
                  exact hasSnap_addSnap_of _ _ _ hs2
              · rcases List.mem_cons.mp hmem with hmem | hmem
                · cases hmem
                · rcases List.mem_singleton.mp hmem with hmem2
                  injection hmem2 with hia hsn
                  subst hia; subst hsn
                  refine ⟨?_, ?_⟩
                  · rw [bo_setBo]
                    simp
                  · rw [hasSnap_setBo]
                    exact hasSnap_addSnap_self _ _
    · cases e with
      | diff d lo up =>
        rw [unlazyStepF_diff] at h
        have hlo : ∃ sa eva, (match lo with
            | some l => unlazyF fuel l s
            | none => some (s, [])) = some (sa, eva) ∧ monoEv s sa eva := by
          cases hl : lo with
          | none => exact ⟨s, [], rfl, monoEv_refl s⟩
          | some l =>
            rw [hl] at h
            dsimp only at h
            cases hu : unlazyF fuel l s with
            | none =>
              rw [hu] at h
              cases h
            | some pr =>
              obtain ⟨sa, eva⟩ := pr
              exact ⟨sa, eva, hu, ih.1 l s sa eva hu⟩
        obtain ⟨sa, eva, heqa, hma⟩ := hlo
        rw [heqa] at h
        dsimp only at h
        cases hup : up with
        | none =>
          rw [hup] at h
          dsimp only at h
          injection h with h1
          injection h1 with ha hb
          subst ha; subst hb
          exact hma
        | some u =>
          rw [hup] at h
          dsimp only at h
          cases hu : unlazyF fuel u sa with
          | none =>
            rw [hu] at h
            cases h
          | some pr =>
            obtain ⟨sb, evb⟩ := pr
            rw [hu] at h
            dsimp only at h
            injection h with h1
            injection h1 with ha hb
            subst ha; subst hb
            exact monoEv_trans hma (ih.1 u sa sb evb hu)
      | base d =>
        rw [unlazyStepF_base] at h
        exact ih.1 (Rec.base d) s s1 ev h
      | layer d p =>
        rw [unlazyStepF_layer] at h
        exact ih.1 (Rec.layer d p) s s1 ev h
      | merge d p ps =>
        rw [unlazyStepF_merge] at h
        exact ih.1 (Rec.merge d p ps) s s1 ev h
    · cases items with
      | nil =>
        rw [unlazyWalkF_nil] at h
        injection h with h1
        injection h1 with ha hb
        subst ha; subst hb
        exact monoEv_refl s
      | cons e rest =>
        rw [unlazyWalkF_cons] at h
        cases hstep : unlazyStepF fuel e s with
        | none => rw [hstep] at h; cases h
        | some pr =>
          obtain ⟨s2, ev1⟩ := pr
          rw [hstep] at h
          dsimp only at h
          cases hrest : unlazyWalkF fuel rest s2 with
          | none => rw [hrest] at h; cases h
          | some pr2 =>
            obtain ⟨s3, ev3⟩ := pr2
            rw [hrest] at h
            dsimp only at h
            injection h with h1
            injection h1 with ha hb
            subst ha; subst hb
            exact monoEv_trans (ih.2.1 e s s2 ev1 hstep) (ih.2.2 rest s2 s3 ev3 hrest)

theorem unlazyF_post (fuel : Nat) (r : Rec) (s s1 : XState) (ev : List Ev)
    (h : unlazyF fuel r s = some (s1, ev)) :
    s1.hasSnap r.data.snapId = true ∨
    ((r.kind = RefKind.Layer ∨ r.kind = RefKind.BaseLayer) ∧ s1.bo r.data.id = false) := by
  cases fuel with
  | zero =>
    unfold unlazyF at h
    cases h
  | succ fuel =>
    unfold unlazyF at h
    by_cases h1 : s.hasSnap r.data.snapId = true
    · rw [if_pos h1] at h
      injection h with h1a
      injection h1a with ha hb
      subst ha
      exact Or.inl h1
    · rw [if_neg h1] at h
      by_cases h2 : r.kind = RefKind.Merge ∨ r.kind = RefKind.Diff
      · rw [if_pos h2] at h
        cases hw : unlazyWalkF fuel (layerWalk r) s with
        | none => rw [hw] at h; cases h
        | some pr =>
          obtain ⟨s2, ev2⟩ := pr
          rw [hw] at h
          dsimp only at h
          injection h with h1a
          injection h1a with ha hb
          subst ha
          exact Or.inl (hasSnap_addSnap_self s2 r.data.snapId)
      · rw [if_neg h2] at h
        have hkind : r.kind = RefKind.Layer ∨ r.kind = RefKind.BaseLayer := by
          cases r with
          | base d => exact Or.inr rfl
          | layer d p => exact Or.inl rfl
          | merge d p ps => exact absurd (Or.inl rfl) h2
          | diff d lo up => exact absurd (Or.inr rfl) h2
        by_cases h3 : s.bo r.data.id = false
        · rw [if_pos h3] at h
          injection h with h1a
          injection h1a with ha hb
          subst ha
          exact Or.inr ⟨hkind, h3⟩
        · rw [if_neg h3] at h
          cases hp : (match r.layerParent with
              | some p => unlazyF fuel p s
              | none => some (s, [])) with
          | none => rw [hp] at h; cases h
          | some pr =>
            obtain ⟨s2, ev1⟩ := pr
            rw [hp] at h
            dsimp only at h
            injection h with h1a
            injection h1a with ha hb
            subst ha
            left
            rw [hasSnap_setBo]
            exact hasSnap_addSnap_self s2 r.data.snapId

/-- C7 (amended).  Extraction is idempotent: if `Extract` succeeds with
state `s1` and effects `ev`, running `Extract` again from `s1` succeeds
immediately with no blob fetch, no applier invocation, and no snapshotter
merge, leaving the state unchanged; moreover whenever the first run
invoked the applier for a record, that record ends with `blobOnly` false
and its snapshot present.  (The unconditional "after a successful Extract
the snapshot exists and blobOnly is false" of the original claim is
refuted by `extract_idempotent_c7_counterexample`.) -/
theorem extract_idempotent_c7 (fuel : Nat) (r : Rec) (s s1 : XState) (ev : List Ev)
    (h : extractF fuel r s = some (s1, ev)) :
    extractF fuel r s1 = some (s1, []) ∧
    (∀ i sn, Ev.apply i sn ∈ ev → s1.bo i = false ∧ s1.hasSnap sn = true) := by
  unfold extractF at h ⊢
  by_cases hc : (r.kind = RefKind.Layer ∨ r.kind = RefKind.BaseLayer) ∧
      s.bo r.data.id = false
  · rw [if_pos hc] at h
    injection h with h1a
    injection h1a with ha hb
    subst ha; subst hb
    rw [if_pos hc]
    exact ⟨rfl, fun i sn hm => absurd hm (List.not_mem_nil _)⟩
  · rw [if_neg hc] at h
    have hmono := (unlazy_monoEv fuel).1 r s s1 ev h
    refine ⟨?_, hmono.2.2⟩
    rcases unlazyF_post fuel r s s1 ev h with hsnap | ⟨hkind, hbo⟩
    · by_cases hc2 : (r.kind = RefKind.Layer ∨ r.kind = RefKind.BaseLayer) ∧
          s1.bo r.data.id = false
      · rw [if_pos hc2]
      · rw [if_neg hc2]
        cases fuel with
        | zero =>
          unfold unlazyF at h
          cases h
        | succ fuel =>
          unfold unlazyF
          rw [if_pos hsnap]
    · rw [if_pos ⟨hkind, hbo⟩]

/-- Counterexample to C7 as stated: a base-layer record that is not
`blobOnly` but whose snapshot does not exist.  `Extract` succeeds
immediately (it only checks the `blobOnly` flag), yet afterwards the
record's snapshot still does not exist, contradicting the claim's "after
the first successful Extract ... its snapshot exists". -/
theorem extract_idempotent_c7_counterexample :
    extractF 3 (Rec.base ⟨"b", "sb", "db", false⟩) ⟨[("b", false)], []⟩
      = some (⟨[("b", false)], []⟩, []) ∧
    XState.hasSnap ⟨[("b", false)], []⟩ "sb" = false := ⟨rfl, rfl⟩

/-- Witness for C7 (amended): a lazy base record is unpacked once (one
fetch, one apply); the second extract does nothing and the applied record
ends non-`blobOnly` with its snapshot present. -/
theorem extract_idempotent_c7_witness :
    extractF 2 (Rec.base ⟨"w", "sw", "dw", true⟩)
        ⟨[("w", false), ("w", true)], ["sw"]⟩ = some (⟨[("w", false), ("w", true)], ["sw"]⟩, []) ∧
    (XState.bo ⟨[("w", false), ("w", true)], ["sw"]⟩ "w" = false ∧
      XState.hasSnap ⟨[("w", false), ("w", true)], ["sw"]⟩ "sw" = true) := by
  have h := extract_idempotent_c7 2 (Rec.base ⟨"w", "sw", "dw", true⟩)
    ⟨[("w", true)], []⟩ ⟨[("w", false), ("w", true)], ["sw"]⟩
    [Ev.fetch "w", Ev.apply "w" "sw"] rfl
  exact ⟨h.1, h.2 "w" "sw" (by decide)⟩

/-! ## C2: merge materialization (`mergeSnapshotter.diffApply`, part_001
lines 32-101, and `immutableRef.unlazyDiffMerge`, `refs.go` lines 967-1001)

Modelled from the spec: the differ (continuity `fs.Changes` /
`overlay.Changes`) and the filesystem the applier mutates are not under
`src/`; per spec §4.4 the differ compares the lower and upper trees entry
by entry and emits `Add`/`Modify`/`Delete` changes, and the applier
applies them to the destination in order.  Filesystem trees are
association lists from path to content id; hardlink substitution
preserves content, so hardlinks and copies coincide in this model.  The
diff pairs themselves are translated from `unlazyDiffMerge` (refs.go
lines 967-1001): for each constituent layer, `Lower` is its layer
parent's snapshot and `Upper` its own snapshot, i.e. for each parent
chain the pairs of consecutive cumulative trees starting from empty. -/

/-- A filesystem tree: paths mapped to content ids. -/
abbrev FS := List (String × Nat)

/-- A tree is well formed when its paths are distinct. -/
def nodupKeys (f : FS) : Prop := (f.map Prod.fst).Nodup

/-- Remove a path. -/
def fsRemove (d : FS) (p : String) : FS := d.filter (fun kv => kv.1 ≠ p)

/-- Set a path to a content id. -/
def fsSet (d : FS) (p : String) (v : Nat) : FS := (p, v) :: fsRemove d p

/-- A change emitted by the differ. -/
inductive Chg where
  | add (p : String) (v : Nat)
  | modify (p : String) (v : Nat)
  | del (p : String)
  deriving Repr, DecidableEq

/-- The path a change concerns. -/
def chgPath : Chg → String
  | .add p _ => p
  | .modify p _ => p
  | .del p => p

/-- The value a change leaves at its path (`none` = absent). -/
def chgEffect : Chg → Option Nat
  | .add _ v => some v
  | .modify _ v => some v
  | .del _ => none

/-- Applying one change to the destination (spec §4.4, steps 2-4, content
level). -/
def applyChg (d : FS) : Chg → FS
  | .add p v => fsSet d p v
  | .modify p v => fsSet d p v
  | .del p => fsRemove d p

/-- Applying a change stream in order. -/
def applyChanges (d : FS) (cs : List Chg) : FS := cs.foldl applyChg d

/-- Modelled from the spec (§4.4 "Differ", double-walk): deletions for
paths of the lower absent from the upper, then adds/modifies for paths of
the upper that are absent from or differ in the lower. -/
def changesOf (l u : FS) : List Chg :=
  (l.filterMap (fun kv =>
    if (u.lookup kv.1).isSome then none else some (Chg.del kv.1))) ++
  (u.filterMap (fun kv =>
    match l.lookup kv.1 with
    | none => some (Chg.add kv.1 kv.2)
    | some c => if c = kv.2 then none else some (Chg.modify kv.1 kv.2)))

/-- The net effect of `changesOf l u` at one path: `none` = untouched,
`some o` = the path ends holding `o`. -/
def chgAt (l u : FS) (p : String) : Option (Option Nat) :=
  match l.lookup p, u.lookup p with
  | some _, none => some none
  | none, some v => some (some v)
  | some c, some v => if c = v then none else some (some v)
  | none, none => none

/-- One `snapshot.Diff` applied to the destination. -/
def applyDiff (d : FS) (pr : FS × FS) : FS := applyChanges d (changesOf pr.1 pr.2)

/-- The diff list `unlazyDiffMerge` produces for one parent chain of
cumulative snapshot trees (refs.go lines 986-994: `Lower` = parent
snapshot, `Upper` = own snapshot; a base layer has empty lower). -/
def chainDiffs (c : List FS) : List (FS × FS) := List.zip (([] : FS) :: c) c

/-- `diffApply` (part_001 lines 32-101) on the diffs of a merge record:
the per-chain diffs of every parent, in parent order, folded over an
empty destination. -/
def mergeDest (chains : List (List FS)) : FS :=
  ((chains.map chainDiffs).flatten).foldl applyDiff []

/-- The claim's formula: the `(p_{i-1}, p_i)` diffs between consecutive
merge parents (with an empty tree before the first), applied in order.
Stated from the claim's words, for refutation. -/
def claimDest (tops : List FS) : FS :=
  (List.zip (([] : FS) :: tops) tops).foldl applyDiff []

/-- Does some layer of the chain mention the path? -/
def touches (c : List FS) (p : String) : Bool := c.any (fun t => (t.lookup p).isSome)

/-- The chain's top (cumulative) tree. -/
def topTree (c : List FS) : FS := c.getLastD []

/-- The upper-wins overlay semantics: the last parent chain that mentions
a path decides it, holding its top tree's value there (absent if the
chain deleted it); paths no chain mentions are absent. -/
def overlayLookup (chains : List (List FS)) (p : String) : Option Nat :=
  match (chains.reverse).find? (fun c => touches c p) with
  | some c => (topTree c).lookup p
  | none => none

theorem lookup_fsRemove (d : FS) (p q : String) :
    (fsRemove d p).lookup q = if q = p then none else d.lookup q := by
  induction d with
  | nil => by_cases h : q = p <;> simp [fsRemove, h]
  | cons kv rest ih =>
    obtain ⟨k, v⟩ := kv
    unfold fsRemove at ih ⊢
    by_cases hk : k = p
    · rw [List.filter_cons]
      simp only [hk]
      have : (decide ¬(p = p)) = false := by simp
      simp only [this, Bool.false_eq_true, if_false]
      rw [ih]
      by_cases hq : q = p
      · simp [hq]
      · simp [hq, List.lookup_cons, beq_false_of_ne hq]
    · rw [List.filter_cons]
      have : (decide ¬(k = p)) = true := by simp [hk]
      simp only [this, if_true]
      by_cases hq : q = k
      · subst hq
        simp [List.lookup_cons, if_neg hk]
      · simp only [List.lookup_cons, beq_false_of_ne hq]
        exact ih

theorem lookup_fsSet (d : FS) (p : String) (v : Nat) (q : String) :
    (fsSet d p v).lookup q = if q = p then some v else d.lookup q := by
  unfold fsSet
  by_cases hq : q = p
  · simp [List.lookup_cons, hq]
  · simp only [List.lookup_cons, beq_false_of_ne hq, if_neg hq]
    rw [lookup_fsRemove, if_neg hq]

theorem lookup_applyChg (d : FS) (c : Chg) (q : String) :
    (applyChg d c).lookup q
      = if q = chgPath c then chgEffect c else d.lookup q := by
  cases c with
  | add p v => simp only [applyChg, chgPath, chgEffect]; exact lookup_fsSet d p v q
  | modify p v => simp only [applyChg, chgPath, chgEffect]; exact lookup_fsSet d p v q
  | del p => simp only [applyChg, chgPath, chgEffect]; exact lookup_fsRemove d p q

theorem applyChanges_lookup_nomem (cs : List Chg) (d : FS) (p : String)
    (h : ∀ c ∈ cs, chgPath c ≠ p) :
    (applyChanges d cs).lookup p = d.lookup p := by
  induction cs generalizing d with
  | nil => rfl
  | cons c rest ih =>
    unfold applyChanges at ih ⊢
    simp only [List.foldl_cons]
    rw [ih (applyChg d c) (fun c2 h2 => h c2 (List.mem_cons_of_mem c h2))]
    rw [lookup_applyChg, if_neg (fun hc => h c (List.mem_cons_self c rest) hc.symm)]

theorem applyChanges_lookup_unique (cs : List Chg) (d : FS) (p : String) (c : Chg)
    (hmem : c ∈ cs) (hpath : chgPath c = p) (hnd : (cs.map chgPath).Nodup) :
    (applyChanges d cs).lookup p = chgEffect c := by
  induction cs generalizing d with
  | nil => cases hmem
  | cons c0 rest ih =>
    unfold applyChanges at ih ⊢
    simp only [List.foldl_cons]
    rcases List.mem_cons.mp hmem with hc | hc
    · subst hc
      have hrest : ∀ c2 ∈ rest, chgPath c2 ≠ p := by
        intro c2 h2 hc2
        rw [List.map_cons] at hnd
        apply (List.nodup_cons.mp hnd).1
        rw [hpath, ← hc2]
        exact List.mem_map_of_mem chgPath h2
      have := applyChanges_lookup_nomem rest (applyChg d c) p hrest
      unfold applyChanges at this
      rw [this, lookup_applyChg, if_pos hpath.symm]
    · have hnd2 : (rest.map chgPath).Nodup := by
        rw [List.map_cons] at hnd
        exact (List.nodup_cons.mp hnd).2
      exact ih (applyChg d c0) hc hnd2

theorem lookup_isSome_of_mem (f : FS) (p : String) (v : Nat) (hm : (p, v) ∈ f) :
    (f.lookup p).isSome = true := by
  induction f with
  | nil => cases hm
  | cons kv rest ih =>
    obtain ⟨k, w⟩ := kv
    rcases List.mem_cons.mp hm with h1 | h1
    · injection h1 with ha hb
      subst ha
      simp [List.lookup_cons]
    · by_cases hk : p = k
      · simp [List.lookup_cons, hk]
      · simp only [List.lookup_cons, beq_false_of_ne hk]
        exact ih h1

theorem mem_of_lookup_eq_some (f : FS) (p : String) (v : Nat)
    (h : f.lookup p = some v) : (p, v) ∈ f := by
  induction f with
  | nil => cases h
  | cons kv rest ih =>
    obtain ⟨k, w⟩ := kv
    by_cases hk : p = k
    · rw [List.lookup_cons] at h
      simp only [hk] at h
      simp only [beq_self_eq_true] at h
      injection h with hv
      subst hv
      subst hk
      exact List.mem_cons_self _ _
    · rw [List.lookup_cons, beq_false_of_ne hk] at h
      exact List.mem_cons_of_mem _ (ih h)

theorem lookup_eq_some_of_mem_nodup (f : FS) (hf : nodupKeys f) (p : String) (v : Nat)
    (hm : (p, v) ∈ f) : f.lookup p = some v := by
  induction f with
  | nil => cases hm
  | cons kv rest ih =>
    obtain ⟨k, w⟩ := kv
    unfold nodupKeys at hf ih
    rw [List.map_cons, List.nodup_cons] at hf
    rcases List.mem_cons.mp hm with h1 | h1
    · injection h1 with ha hb
      subst ha; subst hb
      simp [List.lookup_cons]
    · have hk : p ≠ k := by
        intro hc
        apply hf.1
        rw [← hc]
        exact List.mem_map.mpr ⟨(p, v), h1, rfl⟩
      rw [List.lookup_cons, beq_false_of_ne hk]
      exact ih hf.2 h1

theorem filterMap_paths_sublist (g : (String × Nat) → Option Chg)
    (hg : ∀ kv c, g kv = some c → chgPath c = kv.1) (f : FS) :
    List.Sublist ((f.filterMap g).map chgPath) (f.map Prod.fst) := by
  induction f with
  | nil => simp
  | cons kv rest ih =>
    rw [List.filterMap_cons]
    cases hc : g kv with
    | none =>
      rw [List.map_cons]
      exact ih.cons kv.1
    | some c =>
      simp only [List.map_cons]
      rw [hg kv c hc]
      exact ih.cons₂ kv.1

theorem changesOf_paths_nodup (l u : FS) (hl : nodupKeys l) (hu : nodupKeys u) :
    ((changesOf l u).map chgPath).Nodup := by
  unfold changesOf
  rw [List.map_append]
  refine List.Nodup.append ?_ ?_ ?_
  · refine List.Sublist.nodup (filterMap_paths_sublist _ ?_ l) hl
    intro kv c hc
    by_cases h : (u.lookup kv.1).isSome = true
    · rw [if_pos h] at hc; cases hc
    · rw [if_neg h] at hc
      injection hc with hc
      rw [← hc]
      rfl
  · refine List.Sublist.nodup (filterMap_paths_sublist _ ?_ u) hu
    intro kv c hc
    cases hlk : l.lookup kv.1 with
    | none =>
      rw [hlk] at hc
      dsimp only at hc
      injection hc with hc
      rw [← hc]
      rfl
    | some c0 =>
      rw [hlk] at hc
      dsimp only at hc
      by_cases h : c0 = kv.2
      · rw [if_pos h] at hc; cases hc
      · rw [if_neg h] at hc
        injection hc with hc
        rw [← hc]
        rfl
  · intro p hp1 hp2
    obtain ⟨c1, hc1, hcp1⟩ := List.mem_map.mp hp1
    obtain ⟨c2, hc2, hcp2⟩ := List.mem_map.mp hp2
    obtain ⟨kv1, hkv1, hf1⟩ := List.mem_filterMap.mp hc1
    obtain ⟨kv2, hkv2, hf2⟩ := List.mem_filterMap.mp hc2
    by_cases h : (u.lookup kv1.1).isSome = true
    · rw [if_pos h] at hf1; cases hf1
    · rw [if_neg h] at hf1
      injection hf1 with hf1
      have hp1eq : p = kv1.1 := by rw [← hcp1, ← hf1]; rfl
      have hu2 : (u.lookup p).isSome = true := by
        have hpath2 : chgPath c2 = kv2.1 := by
          cases hlk : l.lookup kv2.1 with
          | none =>
            rw [hlk] at hf2
            dsimp only at hf2
            injection hf2 with hf2
            rw [← hf2]
            rfl
          | some c0 =>
            rw [hlk] at hf2
            dsimp only at hf2
            by_cases h2 : c0 = kv2.2
            · rw [if_pos h2] at hf2; cases hf2
            · rw [if_neg h2] at hf2
              injection hf2 with hf2
              rw [← hf2]
              rfl
        have : p = kv2.1 := by rw [← hcp2, hpath2]
        rw [this]
        exact lookup_isSome_of_mem u kv2.1 kv2.2 hkv2
      rw [hp1eq] at hu2
      rw [hu2] at h
      exact h rfl

theorem chgAt_none_nomem (l u : FS) (hu : nodupKeys u) (p : String)
    (h : chgAt l u p = none) : ∀ c ∈ changesOf l u, chgPath c ≠ p := by
  intro c hc hcp
  unfold changesOf at hc
  rcases List.mem_append.mp hc with hc | hc
  · obtain ⟨kv, hkv, hf⟩ := List.mem_filterMap.mp hc
    by_cases hs : (u.lookup kv.1).isSome = true
    · rw [if_pos hs] at hf; cases hf
    · rw [if_neg hs] at hf
      injection hf with hf
      have hpk : p = kv.1 := by rw [← hcp, ← hf]; rfl
      have hls : (l.lookup kv.1).isSome = true :=
        lookup_isSome_of_mem l kv.1 kv.2 hkv
      unfold chgAt at h
      rw [hpk] at h
      cases hlk : l.lookup kv.1 with
      | none => rw [hlk] at hls; cases hls
      | some c0 =>
        rw [hlk] at h
        cases huk : u.lookup kv.1 with
        | none => rw [huk] at h; cases h
        | some v => rw [huk] at hs; cases hs rfl
  · obtain ⟨kv, hkv, hf⟩ := List.mem_filterMap.mp hc
    have huk : u.lookup kv.1 = some kv.2 :=
      lookup_eq_some_of_mem_nodup u hu kv.1 kv.2 hkv
    cases hlk : l.lookup kv.1 with
    | none =>
      rw [hlk] at hf
      dsimp only at hf
      injection hf with hf
      have hpk : p = kv.1 := by rw [← hcp, ← hf]; rfl
      unfold chgAt at h
      rw [hpk, hlk, huk] at h
      cases h
    | some c0 =>
      rw [hlk] at hf
      dsimp only at hf
      by_cases heq : c0 = kv.2
      · rw [if_pos heq] at hf; cases hf
      · rw [if_neg heq] at hf
        injection hf with hf
        have hpk : p = kv.1 := by rw [← hcp, ← hf]; rfl
        unfold chgAt at h
        rw [hpk, hlk, huk] at h
        dsimp only at h
        rw [if_neg heq] at h
        cases h

theorem chgAt_some_exists (l u : FS) (hl : nodupKeys l) (hu : nodupKeys u)
    (p : String) (o : Option Nat) (h : chgAt l u p = some o) :
    ∃ c ∈ changesOf l u, chgPath c = p ∧ chgEffect c = o := by
  unfold chgAt at h
  cases hlk : l.lookup p with
  | none =>
    rw [hlk] at h
    cases huk : u.lookup p with
    | none => rw [huk] at h; cases h
    | some v =>
      rw [huk] at h
      injection h with h
      refine ⟨Chg.add p v, ?_, rfl, by rw [← h]; rfl⟩
      unfold changesOf
      refine List.mem_append.mpr (Or.inr ?_)
      refine List.mem_filterMap.mpr ⟨(p, v), mem_of_lookup_eq_some u p v huk, ?_⟩
      dsimp only
      rw [hlk]
  | some c0 =>
    rw [hlk] at h
    cases huk : u.lookup p with
    | none =>
      rw [huk] at h
      injection h with h
      refine ⟨Chg.del p, ?_, rfl, by rw [← h]; rfl⟩
      unfold changesOf
      refine List.mem_append.mpr (Or.inl ?_)
      refine List.mem_filterMap.mpr ⟨(p, c0), mem_of_lookup_eq_some l p c0 hlk, ?_⟩
      dsimp only
      rw [huk]
      rfl
    | some v =>
      rw [huk] at h
      dsimp only at h
      by_cases heq : c0 = v
      · rw [if_pos heq] at h; cases h
      · rw [if_neg heq] at h
        injection h with h
        refine ⟨Chg.modify p v, ?_, rfl, by rw [← h]; rfl⟩
        unfold changesOf
        refine List.mem_append.mpr (Or.inr ?_)
        refine List.mem_filterMap.mpr ⟨(p, v), mem_of_lookup_eq_some u p v huk, ?_⟩
        dsimp only
        rw [hlk]
        dsimp only
        rw [if_neg heq]

theorem applyDiff_lookup (l u d : FS) (hl : nodupKeys l) (hu : nodupKeys u)
    (p : String) :
    (applyDiff d (l, u)).lookup p
      = match chgAt l u p with
        | some o => o
        | none => d.lookup p := by
  cases hA : chgAt l u p with
  | none =>
    unfold applyDiff
    exact applyChanges_lookup_nomem _ d p (chgAt_none_nomem l u hu p hA)
  | some o =>
    obtain ⟨c, hc, hcp, hce⟩ := chgAt_some_exists l u hl hu p o hA
    unfold applyDiff
    rw [applyChanges_lookup_unique (changesOf l u) d p c hc hcp
      (changesOf_paths_nodup l u hl hu)]
    exact hce

theorem touches_nil (p : String) : touches [] p = false := rfl

theorem touches_cons (t : FS) (c : List FS) (p : String) :
    touches (t :: c) p = ((t.lookup p).isSome || touches c p) := by
  simp [touches]

theorem topTree_cons_ne (t : FS) (c : List FS) (hc : c ≠ []) :
    topTree (t :: c) = topTree c := by
  unfold topTree
  cases c with
  | nil => exact absurd rfl hc
  | cons a as => rfl

theorem topTree_singleton (t : FS) : topTree [t] = t := rfl

theorem topTree_lookup_none (c : List FS) (p : String) (hc : c ≠ [])
    (ht : touches c p = false) : (topTree c).lookup p = none := by
  induction c with
  | nil => exact absurd rfl hc
  | cons t c' ih =>
    rw [touches_cons] at ht
    have h1 : (t.lookup p).isSome = false := by
      cases h : (t.lookup p).isSome
      · rfl
      · rw [h] at ht; cases ht
    have h2 : touches c' p = false := by
      cases h : touches c' p
      · rfl
      · rw [h] at ht; simp at ht
    by_cases hc2 : c' = []
    · subst hc2
      rw [topTree_singleton]
      cases hl : t.lookup p with
      | none => rfl
      | some v => rw [hl] at h1; cases h1
    · rw [topTree_cons_ne t c' hc2]
      exact ih hc2 h2

theorem chainFold_lookup (c : List FS) : ∀ (prev d : FS) (p : String),
    nodupKeys prev → (∀ t ∈ c, nodupKeys t) →
    (∀ q v, prev.lookup q = some v → d.lookup q = some v) →
    ((List.zip (prev :: c) c).foldl applyDiff d).lookup p
      = if c = [] then d.lookup p
        else if touches c p then (topTree c).lookup p
        else if (prev.lookup p).isSome then none
        else d.lookup p := by
  induction c with
  | nil =>
    intro prev d p _ _ _
    simp [List.zip]
  | cons t c' ih =>
    intro prev d p hprev hts hsup
    have hnt : nodupKeys t := hts t (List.mem_cons_self _ _)
    have hzip : List.zip (prev :: t :: c') (t :: c')
        = (prev, t) :: List.zip (t :: c') c' := rfl
    rw [hzip, List.foldl_cons]
    have hsup1 : ∀ q v, t.lookup q = some v →
        (applyDiff d (prev, t)).lookup q = some v := by
      intro q v hq
      rw [applyDiff_lookup prev t d hprev hnt q]
      unfold chgAt
      cases hpk : prev.lookup q with
      | none =>
        rw [hq]
      | some c0 =>
        rw [hq]
        dsimp only
        by_cases heq : c0 = v
        · rw [if_pos heq]
          dsimp only
          rw [← heq]
          exact hsup q c0 hpk
        · rw [if_neg heq]
    have ihx := ih t (applyDiff d (prev, t)) p hnt
      (fun t2 h2 => hts t2 (List.mem_cons_of_mem t h2)) hsup1
    rw [ihx]
    have hd1 : (applyDiff d (prev, t)).lookup p
        = match chgAt prev t p with
          | some o => o
          | none => d.lookup p := applyDiff_lookup prev t d hprev hnt p
    by_cases hc' : c' = []
    · subst hc'
      simp only [if_pos rfl]
      have hne : (t :: ([] : List FS)) ≠ [] := by simp
      rw [if_neg (by simp : (t :: ([] : List FS)) ≠ [])]
      rw [touches_cons, touches_nil, Bool.or_false]
      cases hts2 : (t.lookup p).isSome with
      | true =>
        simp only [if_true]
        cases htp : t.lookup p with
        | none => rw [htp] at hts2; cases hts2
        | some v =>
          rw [hd1]
          unfold chgAt
          rw [htp, topTree_singleton, htp]
          cases hpk : prev.lookup p with
          | none => rfl
          | some c0 =>
            dsimp only
            by_cases heq : c0 = v
            · rw [if_pos heq]
              dsimp only
              rw [← heq]
              exact hsup p c0 hpk
            · rw [if_neg heq]
      | false =>
        simp only [Bool.false_eq_true, if_false]
        rw [hd1]
        unfold chgAt
        cases htp : t.lookup p with
        | some v => rw [htp] at hts2; cases hts2
        | none =>
          cases hpk : prev.lookup p with
          | none => simp
          | some c0 => simp [hpk]
    · rw [if_neg hc']
      rw [if_neg (by simp : (t :: c') ≠ [])]
      rw [touches_cons]
      cases htc : touches c' p with
      | true =>
        simp only [Bool.or_true, if_true]
        rw [topTree_cons_ne t c' hc']
      | false =>
        simp only [Bool.or_false]
        cases hts2 : (t.lookup p).isSome with
        | true =>
          simp only [if_true]
          rw [topTree_cons_ne t c' hc']
          rw [topTree_lookup_none c' p hc' htc]
          cases htp : t.lookup p with
          | none => rw [htp] at hts2; cases hts2
          | some v => simp [htp]
        | false =>
          simp only [Bool.false_eq_true, if_false]
          rw [hd1]
          unfold chgAt
          cases htp : t.lookup p with
          | some v => rw [htp] at hts2; cases hts2
          | none =>
            cases hpk : prev.lookup p with
            | none => simp
            | some c0 => simp [hpk]

theorem mergeDest_append (chains : List (List FS)) (c : List FS) :
    mergeDest (chains ++ [c]) = (chainDiffs c).foldl applyDiff (mergeDest chains) := by
  unfold mergeDest
  rw [List.map_append, List.flatten_append, List.foldl_append]
  simp

theorem overlayLookup_append (chains : List (List FS)) (c : List FS) (p : String) :
    overlayLookup (chains ++ [c]) p
      = if touches c p then (topTree c).lookup p else overlayLookup chains p := by
  unfold overlayLookup
  rw [List.reverse_append]
  cases h : touches c p with
  | true =>
    have hf : (([c] : List (List FS)).reverse ++ chains.reverse).find?
        (fun c2 => touches c2 p) = some c := by
      simp [List.find?, h]
    rw [hf]
    simp
  | false =>
    have hf : (([c] : List (List FS)).reverse ++ chains.reverse).find?
        (fun c2 => touches c2 p) = chains.reverse.find? (fun c2 => touches c2 p) := by
      simp [List.find?, h]
    rw [hf]
    simp

/-- C2: the destination tree a merge record materializes. The claim's
formula — the `(p_{i-1}, p_i)` diffs between consecutive merge parents —
is refuted by `merge_materialization_c2_counterexample`; the code
(refs.go 967-1001) instead emits, for each parent chain, the diffs
between consecutive layers of that chain (base layer against the empty
tree), and folds all of them into one destination. Amended property: for
parent chains of cumulative snapshot trees with duplicate-free keys, the
materialized destination resolves every path by the LAST parent chain
that mentions it, to that chain's top tree's value there (upper-wins
overlay); paths no chain mentions are absent. Hardlink substitution is
content-preserving and outside the model. -/
theorem merge_materialization_c2 (chains : List (List FS))
    (hnd : ∀ c ∈ chains, ∀ t ∈ c, nodupKeys t) (p : String) :
    (mergeDest chains).lookup p = overlayLookup chains p := by
  revert hnd
  induction chains using List.reverseRecOn with
  | nil => intro _; rfl
  | append_singleton chains c ih =>
    intro hnd
    have hc : ∀ t ∈ c, nodupKeys t := hnd c (by simp)
    have ih' := ih (fun c2 h2 => hnd c2 (List.mem_append_left _ h2))
    rw [mergeDest_append, overlayLookup_append]
    rw [show chainDiffs c = List.zip (([] : FS) :: c) c from rfl]
    rw [chainFold_lookup c [] (mergeDest chains) p (by simp [nodupKeys]) hc
      (fun q v h => by cases h)]
    by_cases hc0 : c = []
    · subst hc0
      rw [if_pos rfl]
      rw [show touches [] p = false from rfl]
      simp only [Bool.false_eq_true, if_false]
      exact ih'
    · rw [if_neg hc0]
      cases ht : touches c p with
      | true => simp
      | false =>
        simp only [Bool.false_eq_true, if_false]
        simp only [List.lookup_nil, Option.isSome_none, if_false]
        exact ih'

/-- The claim's consecutive-parent formula and the code's per-chain fold
disagree: two single-layer parents, the first holding only `z ↦ 9`, the
second only `y ↦ 3`. The code's destination keeps `z` (no chain deletes
it); the claim's `diff(p1, p2)` emits a deletion for `z`. -/
theorem merge_materialization_c2_counterexample :
    (mergeDest [[[("z", 9)]], [[("y", 3)]]]).lookup "z" = some 9 ∧
    (claimDest [[("z", 9)], [("y", 3)]]).lookup "z" = none :=
  ⟨rfl, rfl⟩

theorem merge_materialization_c2_witness :
    (mergeDest [[[("a", 1)], [("a", 1), ("b", 2)]], [[("b", 5)]]]).lookup "b"
      = overlayLookup [[[("a", 1)], [("a", 1), ("b", 2)]], [[("b", 5)]]] "b" :=
  merge_materialization_c2 [[[("a", 1)], [("a", 1), ("b", 2)]], [[("b", 5)]]]
    (by simp only [nodupKeys]; decide) "b"
